import Mathlib

/-!
A verification development for the `sasg` grid generator (`core.py`).

The program is embedded shallowly:

* Python numbers (`int` and finite `float` values) become the inductive
  type `PyNum`.  A float is represented by the exact rational value of the
  decimal string it prints as, stored as an explicit numerator/denominator
  pair so that every operation reduces inside the Lean kernel.  The special
  value `-0.0` gets its own constructor, since it compares `>= 0` but
  prints `-0.0`.
* `str()` on numbers becomes `pyStr`, valid on the plain-decimal printing
  regime of CPython (`1e-4 <= |x| < 1e16` and integers); the
  exponent-notation regime is outside the model.
* `float()` parsing becomes `pyFloat`, a faithful recogniser of CPython's
  accepted syntax restricted to ASCII: optional surrounding whitespace,
  optional sign, `inf`/`infinity`/`nan` (case-insensitive), digit groups
  with PEP-515 underscores, optional decimal point and exponent.  The
  numeric result is kept exact as `mantissa * 10 ^ exponent`.
* Fallible operations (`dict[...]`, `s[0]`, `float(...)`, `np.arange`
  with zero step) return `Except PyErr _` / `Option _` values.
* `np.arange` and the grid builder of `get_grid_df` are embedded with the
  exact rational arithmetic of the length formula
  `ceil((stop - start) / step)`; floating-point rounding of the sequence
  values is not modelled.
-/

/-- Python exception kinds raised by the embedded code. -/
inductive PyErr where
  | keyError
  | valueError
  | indexError
  | zeroDivisionError
deriving DecidableEq, Repr

/-- Result of Python `float(...)`: either a finite value `±N * 10^e`
(kept in the exact mantissa/exponent form produced by the parser),
or one of the special values. -/
inductive PyFloatVal where
  | finite (mant : ℕ) (exp10 : ℤ) (neg : Bool)
  | inf
  | ninf
  | nan
deriving DecidableEq, Repr

/-- The rational value of a finite parse result. -/
def finVal (mant : ℕ) (exp10 : ℤ) (neg : Bool) : ℚ :=
  (cond neg (-1) 1) * (mant : ℚ) * (10 : ℚ) ^ exp10

/-- A Python number: an `int`, a finite `float` written as the decimal
`n / d`, or the float `-0.0`. -/
inductive PyNum where
  | int (z : ℤ)
  | float (n : ℤ) (d : ℕ)
  | negZeroF
deriving DecidableEq, Repr

/-- Numerator/denominator view of a `PyNum` (`-0.0` has value `0`). -/
def PyNum.toPair : PyNum → ℤ × ℕ
  | .int z => (z, 1)
  | .float n d => (n, d)
  | .negZeroF => (0, 1)

/-- The exact rational value of a `PyNum`. -/
def PyNum.toRat (p : PyNum) : ℚ :=
  ((p.toPair.1 : ℚ)) / ((p.toPair.2 : ℚ))

/-- A `float` representation is well formed when its denominator is positive. -/
def PyNum.valid : PyNum → Prop
  | .float _ d => 0 < d
  | _ => True

/-- Whether the number is a Python `int` (drives the `np.arange` dtype). -/
def PyNum.isInt : PyNum → Bool
  | .int _ => true
  | _ => false

/-- Python comparison `x >= 0`; true for `-0.0`. -/
def pyGe0 : PyNum → Bool
  | .int z => decide (0 ≤ z)
  | .float n _ => decide (0 ≤ n)
  | .negZeroF => true

/-- Python `abs`; `abs(-0.0) = 0.0`. -/
def pyAbs : PyNum → PyNum
  | .int z => .int (z.natAbs : ℤ)
  | .float n d => .float (n.natAbs : ℤ) d
  | .negZeroF => .float 0 1

/-- The ten ASCII digit characters. -/
def digCh (d : ℕ) : Char :=
  if d = 0 then '0' else if d = 1 then '1' else if d = 2 then '2'
  else if d = 3 then '3' else if d = 4 then '4' else if d = 5 then '5'
  else if d = 6 then '6' else if d = 7 then '7' else if d = 8 then '8'
  else if d = 9 then '9' else '*'

/-- Digit value of an ASCII digit character. -/
def digVal (c : Char) : Option ℕ :=
  if c = '0' then some 0 else if c = '1' then some 1 else if c = '2' then some 2
  else if c = '3' then some 3 else if c = '4' then some 4 else if c = '5' then some 5
  else if c = '6' then some 6 else if c = '7' then some 7 else if c = '8' then some 8
  else if c = '9' then some 9 else none

/-- Fuel-driven Euclid gcd; structurally recursive so that the kernel can
evaluate it (core `Nat.gcd` is well-founded and does not reduce). -/
def gcdFuel : ℕ → ℕ → ℕ → ℕ
  | 0, a, b => a + b
  | _ + 1, 0, b => b
  | fuel + 1, a + 1, b => gcdFuel fuel (b % (a + 1)) (a + 1)

/-- Kernel-computable gcd. -/
def natGcd (a b : ℕ) : ℕ := gcdFuel (a + 1) a b

/-- Decimal digits of `n`, most significant first (fuel-driven). -/
def natCharsAux : ℕ → ℕ → List Char
  | 0, _ => []
  | fuel + 1, n => if n = 0 then [] else natCharsAux fuel (n / 10) ++ [digCh (n % 10)]

/-- Decimal digit string of a natural number, as Python `str` prints it. -/
def natChars (n : ℕ) : List Char :=
  if n = 0 then ['0'] else natCharsAux n n

/-- `str` of a natural number. -/
def natStr (n : ℕ) : String := String.mk (natChars n)

/-- Exactly `k` decimal digits of `m < 10^k`, most significant first,
zero padded on the left (the fractional part of a float's repr). -/
def padChars : ℕ → ℕ → List Char
  | 0, _ => []
  | k + 1, m => digCh (m / 10 ^ k) :: padChars k (m % 10 ^ k)

/-- Least `k ≤ 64` with `d ∣ 10^k`: the number of fractional digits needed
to write `n / d` as a finite decimal. -/
def decExpAux : ℕ → ℕ → ℕ → Option ℕ
  | _, 0, _ => none
  | k, fuel + 1, d => if 10 ^ k % d = 0 then some k else decExpAux (k + 1) fuel d

def decExp (d : ℕ) : Option ℕ := decExpAux 0 65 d

/-- Decimal rendering of the non-negative fraction `n / d` (`d > 0`, already
reduced), mirroring CPython `str` on a float in the plain-decimal regime:
always at least one digit on each side of the point (`str(2.0) = "2.0"`),
and no trailing zeros beyond that.  Fractions without a finite decimal
expansion (impossible for genuine floats) fall back to `"?"`. -/
def fracChars (n d : ℕ) : List Char :=
  match decExp d with
  | some 0 => natChars n ++ ['.', '0']
  | some k =>
    natChars (n * (10 ^ k / d) / 10 ^ k) ++ '.' :: padChars k (n * (10 ^ k / d) % 10 ^ k)
  | none => ['?']

/-- Python `str` on a `PyNum`.  Floats are normalised first (a float prints
its value, not a particular fraction representing it); `str(-0.0) = "-0.0"`. -/
def pyStr : PyNum → String
  | .int z => String.mk (if z < 0 then '-' :: natChars z.natAbs else natChars z.natAbs)
  | .float n d =>
    String.mk
      (if n < 0 then '-' :: fracChars (n.natAbs / natGcd n.natAbs d) (d / natGcd n.natAbs d)
       else fracChars (n.natAbs / natGcd n.natAbs d) (d / natGcd n.natAbs d))
  | .negZeroF => String.mk ['-', '0', '.', '0']

/-- `core.create_rectangle_wkt`: WKT of the rectangle, corners in the order
(xmin,ymin), (xmin,ymax), (xmax,ymax), (xmax,ymin), (xmin,ymin). -/
def create_rectangle_wkt (x_min x_max y_min y_max : PyNum) : String :=
  "POLYGON((" ++ pyStr x_min ++ " " ++ pyStr y_min ++ ", " ++
    pyStr x_min ++ " " ++ pyStr y_max ++ ", " ++
    pyStr x_max ++ " " ++ pyStr y_max ++ ", " ++
    pyStr x_max ++ " " ++ pyStr y_min ++ ", " ++
    pyStr x_min ++ " " ++ pyStr y_min ++ "))"

/-- Characters stripped by `float(str)` (CPython `Py_ISSPACE`). -/
def pyWS (c : Char) : Bool :=
  c = ' ' || c = '\t' || c = '\n' || c = '\r' || c = '\x0b' || c = '\x0c'

/-- Strip leading and trailing whitespace. -/
def stripWS (l : List Char) : List Char :=
  ((l.dropWhile pyWS).reverse.dropWhile pyWS).reverse

/-- Case-insensitive keyword match; returns the rest of the input. -/
def matchKW : List Char → List Char → Option (List Char)
  | [], rest => some rest
  | _ :: _, [] => none
  | k :: ks, c :: cs => if c.toLower = k then matchKW ks cs else none

/-- Consume a run of ASCII digits, accumulating the value and the digit
count; returns the unconsumed rest.  Underscores were already validated and
stripped at this point (as CPython does before handing the string to its
number parser). -/
def digitRun (acc cnt : ℕ) : List Char → ℕ × ℕ × List Char
  | [] => (acc, cnt, [])
  | c :: rest =>
    if (digVal c).isSome then digitRun (10 * acc + (digVal c).getD 0) (cnt + 1) rest
    else (acc, cnt, c :: rest)

/-- A digit group: at least one leading digit, then `digitRun`. -/
def digitGroup : List Char → Option (ℕ × ℕ × List Char)
  | [] => none
  | c :: rest =>
    match digVal c with
    | some d => some (digitRun d 1 rest)
    | none => none

/-- Is the optional character a digit? -/
def isDigitO : Option Char → Bool
  | some c => (digVal c).isSome
  | none => false

/-- Does the list start with a digit? -/
def headDigit : List Char → Bool
  | c :: _ => (digVal c).isSome
  | [] => false

/-- PEP-515 validation walk: every underscore must sit directly between two
digits (`prev` is the previous character). -/
def usOKAux (prev : Option Char) : List Char → Bool
  | [] => true
  | c :: rest =>
    if c = '_' then isDigitO prev && headDigit rest && usOKAux (some c) rest
    else usOKAux (some c) rest

/-- CPython validates underscore placement over the whole literal and then
strips the underscores before parsing the remaining characters. -/
def usOK (l : List Char) : Bool := usOKAux none l

/-- Optional exponent part and end of input: after the mantissa
`mant * 10^e`, accept `[eE][+-]?digits` and require the input
to be exhausted. -/
def expPart (mant : ℕ) (e : ℤ) : List Char → Option (ℕ × ℤ)
  | [] => some (mant, e)
  | c :: rest =>
    if c.toLower = 'e' then
      match rest with
      | '+' :: r2 =>
        match digitGroup r2 with
        | some (x, _, r3) => if r3.isEmpty then some (mant, e + x) else none
        | none => none
      | '-' :: r2 =>
        match digitGroup r2 with
        | some (x, _, r3) => if r3.isEmpty then some (mant, e - x) else none
        | none => none
      | _ =>
        match digitGroup rest with
        | some (x, _, r3) => if r3.isEmpty then some (mant, e + x) else none
        | none => none
    else none

/-- Unsigned numeric literal `digits [. digits] [exp]` or `. digits [exp]`;
the value is `mant * 10^e`. -/
def numLit (l : List Char) : Option (ℕ × ℤ) :=
  match digitGroup l with
  | some (n, _, r) =>
    match r with
    | '.' :: r2 =>
      match digitGroup r2 with
      | some (f, k, r3) => expPart (n * 10 ^ k + f) (-(k : ℤ)) r3
      | none => expPart n 0 r2
    | _ => expPart n 0 r
  | none =>
    match l with
    | '.' :: r2 =>
      match digitGroup r2 with
      | some (f, k, r3) => expPart f (-(k : ℤ)) r3
      | none => none
    | _ => none

def kwInfinity : List Char := ['i', 'n', 'f', 'i', 'n', 'i', 't', 'y']
def kwInf : List Char := ['i', 'n', 'f']
def kwNan : List Char := ['n', 'a', 'n']

/-- Unsigned float literal: `inf`, `infinity`, `nan` (case-insensitive) or a
numeric literal. -/
def unsignedFloat (l : List Char) : Option PyFloatVal :=
  match matchKW kwInfinity l with
  | some r => if r.isEmpty then some .inf else none
  | none =>
    match matchKW kwInf l with
    | some r => if r.isEmpty then some .inf else none
    | none =>
      match matchKW kwNan l with
      | some r => if r.isEmpty then some .nan else none
      | none =>
        match numLit l with
        | some (m, e) => some (.finite m e false)
        | none => none

/-- Python unary minus on a float value (`-nan` is `nan`). -/
def pyNegVal : PyFloatVal → PyFloatVal
  | .finite m e b => .finite m e (!b)
  | .inf => .ninf
  | .ninf => .inf
  | .nan => .nan

/-- Signed float literal. -/
def signedFloat (l : List Char) : Option PyFloatVal :=
  match l with
  | '+' :: r => unsignedFloat r
  | '-' :: r => (unsignedFloat r).map pyNegVal
  | _ => unsignedFloat l

/-- The embedding of Python `float(s)`: strip whitespace, validate and
strip PEP-515 underscores, then parse a signed literal.  `none` models
`ValueError`. -/
def pyFloat (s : String) : Option PyFloatVal :=
  if usOK (stripWS s.toList) then
    signedFloat ((stripWS s.toList).filter (fun c => c ≠ '_'))
  else none

deriving instance DecidableEq for Except

/-- `s.lower()` (ASCII, which covers every character this program emits). -/
def pyLower (l : List Char) : List Char := l.map Char.toLower

/-- `s.replace("p", ".")`. -/
def pyReplacePdot (l : List Char) : List Char :=
  l.map (fun c => if c = 'p' then '.' else c)

/-- The `d_signal` dictionary of `retrieve_number`: compass letter to sign
character; `none` models a `KeyError`. -/
def d_signal (c : Char) : Option Char :=
  if c = 'w' then some '-'
  else if c = 's' then some '-'
  else if c = 'n' then some '+'
  else if c = 'e' then some '+'
  else none

/-- `core.retrieve_number`: lower-case the string, replace `p` by `.`, read
the sign off the first character through `d_signal`, and parse the rest
(with the sign prepended) as a float.  An empty input raises `IndexError`
at `s_number[0]`, an unknown first letter raises `KeyError`, and a string
rejected by `float` raises `ValueError`. -/
def retrieve_number (s : String) : Except PyErr PyFloatVal :=
  match pyReplacePdot (pyLower s.toList) with
  | [] => .error .indexError
  | c :: rest =>
    match d_signal c with
    | none => .error .keyError
    | some sg =>
      match pyFloat (String.mk (sg :: rest)) with
      | some v => .ok v
      | none => .error .valueError

/-- The `d_signal_positive` dictionary of `format_number`. -/
def d_signal_positive (a : String) : Option String :=
  if a = "y" then some "n" else if a = "x" then some "e" else none

/-- The `d_signal_negative` dictionary of `format_number`. -/
def d_signal_negative (a : String) : Option String :=
  if a = "y" then some "s" else if a = "x" then some "w" else none

/-- `s.replace(".", "p")` applied to `str(abs(f))`. -/
def absStrP (f : PyNum) : String :=
  String.mk ((pyStr (pyAbs f)).toList.map (fun c => if c = '.' then 'p' else c))

/-- `core.format_number`.  The axis argument is `Option String` so that the
Python call with `axis=None` can be expressed.  Mirroring the source, the
hemisphere dictionary is indexed *before* the `axis is None` test, so
`axis=None` raises `KeyError` and the later `s_hem = ""` branch is dead. -/
def format_number (f_number : PyNum) (axis : Option String) : Except PyErr String :=
  match (if pyGe0 f_number then axis.bind d_signal_positive
         else axis.bind d_signal_negative) with
  | none => .error .keyError
  | some s_hem =>
    .ok ((if axis = none then "" else s_hem) ++ absStrP f_number)

/-- `core.get_code`: format the four bounds (x axis for the x bounds, y axis
for the y bounds) and join them with `-`. -/
def get_code (x_min x_max y_min y_max : PyNum) : Except PyErr String :=
  (format_number x_min (some "x")).bind (fun s1 =>
    (format_number x_max (some "x")).bind (fun s2 =>
      (format_number y_min (some "y")).bind (fun s3 =>
        (format_number y_max (some "y")).map (fun s4 =>
          String.intercalate "-" [s1, s2, s3, s4]))))

/-- `⌈p / q⌉` for an integer over a natural (`q = 0` gives `0`). -/
def ceilIntNat (p : ℤ) (q : ℕ) : ℤ := -((-p) / (q : ℤ))

/-- The element count of `np.arange(start, stop, step)`:
`max 0 ⌈(stop - start) / step⌉`, computed exactly on the fraction pairs.
For a negative step the ceiling is taken with numerator and denominator
negated, which is the same rational. -/
def arangeLen (start stop step : PyNum) : ℕ :=
  ((if 0 < step.toPair.1 then
      ceilIntNat ((stop.toPair.1 * start.toPair.2 - start.toPair.1 * stop.toPair.2)
          * step.toPair.2)
        (start.toPair.2 * stop.toPair.2 * step.toPair.1.toNat)
    else
      ceilIntNat (-((stop.toPair.1 * start.toPair.2 - start.toPair.1 * stop.toPair.2)
          * step.toPair.2))
        (start.toPair.2 * stop.toPair.2 * (-step.toPair.1).toNat))).toNat

/-- `np.arange(start, stop, step)`.  A zero step raises
`ZeroDivisionError` (modelled as `none`).  When all three arguments are
Python ints the result holds ints, otherwise floats (numpy dtype
promotion); the `i`-th value is `start + i * step`, kept as an exact
fraction over the common denominator `ad * sd`. -/
def np_arange (start stop step : PyNum) : Option (List PyNum) :=
  if step.toPair.1 = 0 then none
  else if start.isInt && stop.isInt && step.isInt then
    some ((List.range (arangeLen start stop step)).map (fun k : ℕ =>
      PyNum.int (start.toPair.1 + (k : ℤ) * step.toPair.1)))
  else
    some ((List.range (arangeLen start stop step)).map (fun k : ℕ =>
      PyNum.float (start.toPair.1 * (step.toPair.2 : ℤ) +
          (k : ℤ) * step.toPair.1 * (start.toPair.2 : ℤ))
        (start.toPair.2 * step.toPair.2)))

/-- One row of the output table of `get_grid_df`. -/
structure GridCell where
  Id : ℕ
  tile_code : String
  x_min : PyNum
  x_max : PyNum
  y_min : PyNum
  y_max : PyNum
  geometry : String
deriving DecidableEq, Repr

/-- Unwrap the code string; `get_code` with the literal axes `"x"`/`"y"`
never raises (see `get_code_ok`), so the error branch is unreachable. -/
def exceptStr : Except PyErr String → String
  | .ok s => s
  | .error _ => ""

/-- The cell built by the loop body of `get_grid_df` at indices `(i, j)`:
bounds `xs[i], xs[i+1], ys[j], ys[j+1]`, WKT geometry, tile code, and the
sequential id `i * (len(ys) - 1) + j + 1` that the counter `c_id` has at
that iteration. -/
def cellOf (xs ys : List PyNum) (i j : ℕ) : GridCell :=
  { Id := i * (ys.length - 1) + j + 1
    tile_code := exceptStr (get_code (xs.getD i (.int 0)) (xs.getD (i + 1) (.int 0))
      (ys.getD j (.int 0)) (ys.getD (j + 1) (.int 0)))
    x_min := xs.getD i (.int 0)
    x_max := xs.getD (i + 1) (.int 0)
    y_min := ys.getD j (.int 0)
    y_max := ys.getD (j + 1) (.int 0)
    geometry := create_rectangle_wkt (xs.getD i (.int 0)) (xs.getD (i + 1) (.int 0))
      (ys.getD j (.int 0)) (ys.getD (j + 1) (.int 0)) }

/-- The nested loops of `get_grid_df`: `i` over `range(len(xs) - 1)`, `j`
over `range(len(ys) - 1)`, sequential ids starting at 1. -/
def buildCells (xs ys : List PyNum) : List GridCell :=
  (List.range (xs.length - 1)).flatMap (fun i =>
    (List.range (ys.length - 1)).map (fun j => cellOf xs ys i j))

/-- `core.get_grid_df`: build the coordinate sequences and assemble the
table of cells. -/
def get_grid_df (step xs_min xs_max ys_min ys_max : PyNum) :
    Option (List GridCell) :=
  (np_arange xs_min xs_max step).bind (fun xs =>
    (np_arange ys_min ys_max step).bind (fun ys =>
      some (buildCells xs ys)))

/-- The numeric value of a digit string, continuing from `acc`. -/
def valAcc (acc : ℕ) : List Char → ℕ
  | [] => acc
  | c :: l => valAcc (10 * acc + (digVal c).getD 0) l

/-- All characters are ASCII digits. -/
def allDigB (l : List Char) : Bool := l.all (fun c => (digVal c).isSome)

/-- A list on which a digit run stops: empty, or headed by a non-digit. -/
def runStop (rest : List Char) : Prop :=
  rest = [] ∨ ∃ c cs, rest = c :: cs ∧ digVal c = none

/-- Maximal leading run of ASCII digits, and the rest. -/
def digitsPre : List Char → List Char × List Char
  | [] => ([], [])
  | c :: l =>
    if (digVal c).isSome then (c :: (digitsPre l).1, (digitsPre l).2)
    else ([], c :: l)

/-- The specification's notion of a non-negative decimal number for the
decoder's remainder (§4.1: `<digits>[p<digits>]`, shown here after the
`p`-to-`.` substitution, so `digits [. digits]`).  This definition follows
the spec's words and is compared against the parser embedded from the
code. -/
def specIsNonNegDecimal (l : List Char) : Bool :=
  !(digitsPre l).1.isEmpty &&
    match (digitsPre l).2 with
    | [] => true
    | c :: b => c = '.' && !(digitsPre b).1.isEmpty && (digitsPre b).2.isEmpty

/-- The value of a spec decimal (integer part plus scaled fractional part). -/
def specDecVal (l : List Char) : ℚ :=
  match (digitsPre l).2 with
  | [] => (valAcc 0 (digitsPre l).1 : ℚ)
  | _ :: b => (valAcc 0 (digitsPre l).1 : ℚ) +
      (valAcc 0 (digitsPre b).1 : ℚ) / (10 : ℚ) ^ (digitsPre b).1.length

/-! ### Digit strings: values and parser runs -/

theorem digit_cases (c : Char) (h : (digVal c).isSome = true) :
    c = '0' ∨ c = '1' ∨ c = '2' ∨ c = '3' ∨ c = '4' ∨ c = '5' ∨ c = '6' ∨
      c = '7' ∨ c = '8' ∨ c = '9' := by
  by_contra hc
  push_neg at hc
  obtain ⟨h0, h1, h2, h3, h4, h5, h6, h7, h8, h9⟩ := hc
  rw [digVal, if_neg h0, if_neg h1, if_neg h2, if_neg h3, if_neg h4, if_neg h5,
    if_neg h6, if_neg h7, if_neg h8, if_neg h9] at h
  exact Bool.false_ne_true h

theorem digit_facts (c : Char) (h : (digVal c).isSome = true) :
    Char.toLower c = c ∧ c ≠ 'p' ∧ c ≠ '.' ∧ c ≠ '_' ∧ pyWS c = false ∧
      Char.toLower c ≠ 'i' ∧ Char.toLower c ≠ 'n' ∧ c ≠ '+' ∧ c ≠ '-' ∧
      Char.toLower c ≠ 'e' := by
  rcases digit_cases c h with rfl | rfl | rfl | rfl | rfl | rfl | rfl | rfl | rfl | rfl <;>
    decide

theorem digVal_digCh (d : ℕ) (h : d < 10) : digVal (digCh d) = some d := by
  interval_cases d <;> decide

theorem valAcc_append (acc : ℕ) (l1 l2 : List Char) :
    valAcc acc (l1 ++ l2) = valAcc (valAcc acc l1) l2 := by
  induction l1 generalizing acc with
  | nil => rfl
  | cons c t ih =>
    simp only [List.cons_append, valAcc]
    exact ih _

theorem digitRun_cons_digit (acc cnt : ℕ) (c : Char) (rest : List Char) (d : ℕ)
    (h : digVal c = some d) :
    digitRun acc cnt (c :: rest) = digitRun (10 * acc + d) (cnt + 1) rest := by
  simp [digitRun, h]

theorem digitRun_cons_stop (acc cnt : ℕ) (c : Char) (rest : List Char)
    (h : digVal c = none) :
    digitRun acc cnt (c :: rest) = (acc, cnt, c :: rest) := by
  simp [digitRun, h]

theorem digitRun_append (l : List Char) (hl : allDigB l = true) (rest : List Char)
    (hr : runStop rest) (acc cnt : ℕ) :
    digitRun acc cnt (l ++ rest) = (valAcc acc l, cnt + l.length, rest) := by
  induction l generalizing acc cnt with
  | nil =>
    rcases hr with rfl | ⟨c, cs, rfl, hc⟩
    · rfl
    · simpa [valAcc] using digitRun_cons_stop acc cnt c cs hc
  | cons c t ih =>
    simp only [allDigB, List.all_cons, Bool.and_eq_true] at hl
    obtain ⟨d, hd⟩ := Option.isSome_iff_exists.mp hl.1
    have ht : allDigB t = true := hl.2
    rw [List.cons_append, digitRun_cons_digit acc cnt c _ d hd, ih ht]
    simp only [valAcc, hd, Option.getD_some, List.length_cons]
    have hc : cnt + 1 + t.length = cnt + (t.length + 1) := by omega
    rw [hc]

theorem digitGroup_append (l : List Char) (hne : l ≠ []) (hl : allDigB l = true)
    (rest : List Char) (hr : runStop rest) :
    digitGroup (l ++ rest) = some (valAcc 0 l, l.length, rest) := by
  cases l with
  | nil => exact absurd rfl hne
  | cons c t =>
    simp only [allDigB, List.all_cons, Bool.and_eq_true] at hl
    obtain ⟨d, hd⟩ := Option.isSome_iff_exists.mp hl.1
    have ht : allDigB t = true := hl.2
    simp only [List.cons_append, digitGroup, hd]
    rw [digitRun_append t ht rest hr]
    simp only [valAcc, hd, Option.getD_some, List.length_cons, Option.some.injEq,
      Prod.mk.injEq, Nat.mul_zero, Nat.zero_add]
    exact ⟨trivial, by omega, trivial⟩

theorem natCharsAux_spec (fuel : ℕ) :
    ∀ n, n ≤ fuel → allDigB (natCharsAux fuel n) = true ∧
      ∀ acc, valAcc acc (natCharsAux fuel n) =
        acc * 10 ^ (natCharsAux fuel n).length + n := by
  induction fuel with
  | zero =>
    intro n hn
    interval_cases n
    exact ⟨rfl, fun acc => by simp [natCharsAux, valAcc]⟩
  | succ fuel ih =>
    intro n hn
    by_cases h0 : n = 0
    · subst h0
      refine ⟨by simp [natCharsAux, allDigB], fun acc => by simp [natCharsAux, valAcc]⟩
    · have hdiv : n / 10 ≤ fuel := by
        have : n / 10 < n := Nat.div_lt_self (Nat.pos_of_ne_zero h0) (by norm_num)
        omega
      obtain ⟨ihd, ihv⟩ := ih (n / 10) hdiv
      have hmod : n % 10 < 10 := Nat.mod_lt _ (by norm_num)
      constructor
      · simp only [natCharsAux, if_neg h0, allDigB, List.all_append, Bool.and_eq_true,
          List.all_cons, List.all_nil, Bool.and_true]
        exact ⟨ihd, by simp [digVal_digCh _ hmod]⟩
      · intro acc
        simp only [natCharsAux, if_neg h0, valAcc_append, List.length_append,
          List.length_cons, List.length_nil]
        rw [ihv acc]
        simp only [valAcc, digVal_digCh _ hmod, Option.getD_some]
        have hdm : 10 * (n / 10) + n % 10 = n := Nat.div_add_mod n 10
        have hpow : 10 ^ (0 + 1) = 10 := by norm_num
        ring_nf
        ring_nf at hdm
        omega

theorem natChars_spec (n : ℕ) :
    allDigB (natChars n) = true ∧ natChars n ≠ [] ∧
      ∀ acc, valAcc acc (natChars n) = acc * 10 ^ (natChars n).length + n := by
  by_cases h0 : n = 0
  · subst h0
    exact ⟨by decide, by decide, fun acc => by
      simp [natChars, valAcc, digVal]
      ring⟩
  · obtain ⟨hd, hv⟩ := natCharsAux_spec n n le_rfl
    refine ⟨by simpa [natChars, h0] using hd, ?_, ?_⟩
    · have h1 := hv 1
      intro hnil
      rw [natChars, if_neg h0] at hnil
      rw [hnil] at h1
      simp [valAcc] at h1
      omega
    · intro acc
      simpa [natChars, h0] using hv acc

theorem natChars_val (n : ℕ) : valAcc 0 (natChars n) = n := by
  simpa using (natChars_spec n).2.2 0

theorem padChars_spec (k : ℕ) :
    ∀ m, m < 10 ^ k → allDigB (padChars k m) = true ∧ (padChars k m).length = k ∧
      ∀ acc, valAcc acc (padChars k m) = acc * 10 ^ k + m := by
  induction k with
  | zero =>
    intro m hm
    interval_cases m
    exact ⟨rfl, rfl, fun acc => by simp [padChars, valAcc]⟩
  | succ k ih =>
    intro m hm
    have hpos : 0 < 10 ^ k := Nat.pos_pow_of_pos k (by norm_num)
    have hdig : m / 10 ^ k < 10 := by
      rw [Nat.div_lt_iff_lt_mul hpos]
      calc m < 10 ^ (k + 1) := hm
        _ = 10 * 10 ^ k := by ring
    have hmod : m % 10 ^ k < 10 ^ k := Nat.mod_lt _ hpos
    obtain ⟨ihd, ihl, ihv⟩ := ih (m % 10 ^ k) hmod
    refine ⟨?_, ?_, ?_⟩
    · simp only [padChars, allDigB, List.all_cons, Bool.and_eq_true]
      exact ⟨by simp [digVal_digCh _ hdig], ihd⟩
    · simp [padChars, ihl]
    · intro acc
      simp only [padChars, valAcc, digVal_digCh _ hdig, Option.getD_some]
      rw [ihv]
      have hdm : 10 ^ k * (m / 10 ^ k) + m % 10 ^ k = m := Nat.div_add_mod m (10 ^ k)
      ring_nf
      ring_nf at hdm
      omega

/-! ### Printing a fraction and parsing it back -/

theorem gcdFuel_eq_gcd (fuel : ℕ) :
    ∀ a b, a < fuel → gcdFuel fuel a b = Nat.gcd a b := by
  induction fuel with
  | zero => intro a b h; omega
  | succ fuel ih =>
    intro a b h
    match a with
    | 0 => simp [gcdFuel]
    | a' + 1 =>
      have hlt : b % (a' + 1) < fuel := by
        have h1 : b % (a' + 1) < a' + 1 := Nat.mod_lt _ (Nat.succ_pos a')
        omega
      rw [show gcdFuel (fuel + 1) (a' + 1) b = gcdFuel fuel (b % (a' + 1)) (a' + 1) from rfl,
        ih _ _ hlt]
      exact (Nat.gcd_rec (a' + 1) b).symm

theorem natGcd_eq_gcd (a b : ℕ) : natGcd a b = Nat.gcd a b :=
  gcdFuel_eq_gcd (a + 1) a b (Nat.lt_succ_self a)

theorem decExpAux_dvd (fuel : ℕ) :
    ∀ start d k, decExpAux start fuel d = some k → d ∣ 10 ^ k := by
  induction fuel with
  | zero => intro start d k h; simp [decExpAux] at h
  | succ fuel ih =>
    intro start d k h
    rw [decExpAux] at h
    by_cases h10 : 10 ^ start % d = 0
    · rw [if_pos h10] at h
      obtain rfl : start = k := by simpa using h
      exact Nat.dvd_of_mod_eq_zero h10
    · rw [if_neg h10] at h
      exact ih _ _ _ h

theorem decExp_dvd (d k : ℕ) (h : decExp d = some k) : d ∣ 10 ^ k :=
  decExpAux_dvd 65 0 d k h

theorem decExp_zero_den (d : ℕ) (h : decExp d = some 0) : d = 1 := by
  have := decExp_dvd d 0 h
  simpa using this

theorem expPart_nil (mant : ℕ) (e : ℤ) : expPart mant e [] = some (mant, e) := rfl

theorem numLit_int_frac (a b : List Char) (ha : a ≠ []) (hda : allDigB a = true)
    (hb : b ≠ []) (hdb : allDigB b = true) :
    numLit (a ++ '.' :: b) =
      some (valAcc 0 a * 10 ^ b.length + valAcc 0 b, -(b.length : ℤ)) := by
  have h2 : digitGroup b = some (valAcc 0 b, b.length, []) := by
    simpa using digitGroup_append b hb hdb [] (Or.inl rfl)
  simp only [numLit,
    digitGroup_append a ha hda ('.' :: b) (Or.inr ⟨'.', b, rfl, by decide⟩), h2,
    expPart_nil]

theorem numLit_int_only (a : List Char) (ha : a ≠ []) (hda : allDigB a = true) :
    numLit a = some (valAcc 0 a, 0) := by
  have h1 : digitGroup a = some (valAcc 0 a, a.length, []) := by
    simpa using digitGroup_append a ha hda [] (Or.inl rfl)
  simp only [numLit, h1]
  rfl

theorem fracChars_class (n d k : ℕ) (hk : decExp d = some k) :
    ∀ c ∈ fracChars n d, (digVal c).isSome = true ∨ c = '.' := by
  intro c hc
  rw [fracChars, hk] at hc
  match k with
  | 0 =>
    simp only [List.mem_append, List.mem_cons] at hc
    rcases hc with h | h | h
    · exact Or.inl (by
        have hall := (natChars_spec n).1
        rw [allDigB, List.all_eq_true] at hall
        exact hall c h)
    · exact Or.inr h
    · rcases h with rfl | h
      · left; decide
      · simp at h
  | k' + 1 =>
    simp only [List.mem_append, List.mem_cons] at hc
    rcases hc with h | h | h
    · exact Or.inl (by
        have hall := (natChars_spec (n * (10 ^ (k' + 1) / d) / 10 ^ (k' + 1))).1
        rw [allDigB, List.all_eq_true] at hall
        exact hall c h)
    · exact Or.inr h
    · left
      have hfr : n * (10 ^ (k' + 1) / d) % 10 ^ (k' + 1) < 10 ^ (k' + 1) :=
        Nat.mod_lt _ (Nat.pos_pow_of_pos _ (by norm_num))
      have hall := (padChars_spec (k' + 1) _ hfr).1
      rw [allDigB, List.all_eq_true] at hall
      exact hall c h

theorem fracChars_head (n d k : ℕ) (hk : decExp d = some k) :
    ∃ c rest, fracChars n d = c :: rest ∧ (digVal c).isSome = true := by
  rw [fracChars, hk]
  match k with
  | 0 =>
    have hspec := natChars_spec n
    obtain ⟨c, t, hct⟩ := List.exists_cons_of_ne_nil hspec.2.1
    refine ⟨c, t ++ ['.', '0'], by simp [hct], ?_⟩
    have hall := hspec.1
    rw [allDigB, List.all_eq_true] at hall
    exact hall c (by simp [hct])
  | k' + 1 =>
    have hspec2 := natChars_spec (n * (10 ^ (k' + 1) / d) / 10 ^ (k' + 1))
    obtain ⟨c, t, hct⟩ := List.exists_cons_of_ne_nil hspec2.2.1
    refine ⟨c, t ++ '.' :: padChars (k' + 1) (n * (10 ^ (k' + 1) / d) % 10 ^ (k' + 1)),
      by simp [hct], ?_⟩
    have hall := hspec2.1
    rw [allDigB, List.all_eq_true] at hall
    exact hall c (by simp [hct])

theorem fracChars_numLit (n d : ℕ) (hd : 0 < d) (k : ℕ) (hk : decExp d = some k) :
    ∃ M : ℕ, ∃ e : ℤ, numLit (fracChars n d) = some (M, e) ∧
      (M : ℚ) * (10 : ℚ) ^ e = (n : ℚ) / (d : ℚ) := by
  match k with
  | 0 =>
    obtain rfl : d = 1 := decExp_zero_den d hk
    refine ⟨n * 10 ^ 1 + 0, -1, ?_, ?_⟩
    · rw [fracChars, hk]
      have h1 : (['.', '0'] : List Char) = '.' :: ['0'] := rfl
      rw [show natChars n ++ ['.', '0'] = natChars n ++ '.' :: ['0'] from rfl,
        numLit_int_frac (natChars n) ['0'] (natChars_spec n).2.1 (natChars_spec n).1
          (by decide) (by decide)]
      simp [natChars_val, valAcc, digVal]
    · rw [zpow_neg, zpow_one]
      push_cast
      ring
  | k' + 1 =>
    have hpow : 0 < 10 ^ (k' + 1) := Nat.pos_pow_of_pos _ (by norm_num)
    have hfr : n * (10 ^ (k' + 1) / d) % 10 ^ (k' + 1) < 10 ^ (k' + 1) :=
      Nat.mod_lt _ hpow
    have hpadspec := padChars_spec (k' + 1) _ hfr
    have hpadne : padChars (k' + 1) (n * (10 ^ (k' + 1) / d) % 10 ^ (k' + 1)) ≠ [] := by
      simp [padChars]
    refine ⟨n * (10 ^ (k' + 1) / d), -((k' + 1 : ℕ) : ℤ), ?_, ?_⟩
    · rw [fracChars, hk]
      show numLit (natChars (n * (10 ^ (k' + 1) / d) / 10 ^ (k' + 1)) ++
          '.' :: padChars (k' + 1) (n * (10 ^ (k' + 1) / d) % 10 ^ (k' + 1))) =
        some (n * (10 ^ (k' + 1) / d), -((k' + 1 : ℕ) : ℤ))
      rw [numLit_int_frac (natChars (n * (10 ^ (k' + 1) / d) / 10 ^ (k' + 1)))
          (padChars (k' + 1) (n * (10 ^ (k' + 1) / d) % 10 ^ (k' + 1)))
          (natChars_spec _).2.1 (natChars_spec _).1 hpadne hpadspec.1]
    
      rw [natChars_val, hpadspec.2.1]
      have hval : valAcc 0 (padChars (k' + 1) (n * (10 ^ (k' + 1) / d) % 10 ^ (k' + 1))) =
          n * (10 ^ (k' + 1) / d) % 10 ^ (k' + 1) := by
        simpa using hpadspec.2.2 0
      rw [hval]
      have hdm : n * (10 ^ (k' + 1) / d) / 10 ^ (k' + 1) * 10 ^ (k' + 1) +
          n * (10 ^ (k' + 1) / d) % 10 ^ (k' + 1) = n * (10 ^ (k' + 1) / d) :=
        Nat.div_add_mod' _ _
      rw [hdm]
    · have hdvd : d ∣ 10 ^ (k' + 1) := decExp_dvd d (k' + 1) hk
      have hdne : (d : ℚ) ≠ 0 := by exact_mod_cast hd.ne'
      have hcast : ((10 ^ (k' + 1) / d : ℕ) : ℚ) = (10 : ℚ) ^ (k' + 1) / (d : ℚ) := by
        rw [Nat.cast_div hdvd hdne]
        push_cast
        ring
      rw [zpow_neg, zpow_natCast]
      push_cast [hcast]
      have hne : ((10 : ℚ) ^ (k' + 1)) ≠ 0 := by positivity
      field_simp
      ring

/-! ### `float()` on the strings the program prints -/

theorem toList_mk (l : List Char) : (String.mk l).toList = l := rfl

theorem append_mk (a b : List Char) :
    String.mk a ++ String.mk b = String.mk (a ++ b) := rfl

theorem dropWhile_pyWS_eq (l : List Char) (h : ∀ c ∈ l, pyWS c = false) :
    l.dropWhile pyWS = l := by
  cases l with
  | nil => rfl
  | cons c t => simp [List.dropWhile_cons, h c (List.mem_cons_self c t)]

theorem stripWS_eq (l : List Char) (h : ∀ c ∈ l, pyWS c = false) : stripWS l = l := by
  unfold stripWS
  rw [dropWhile_pyWS_eq l h,
    dropWhile_pyWS_eq l.reverse (fun c hc => h c (List.mem_reverse.mp hc)),
    List.reverse_reverse]

theorem usOKAux_of_no_us (l : List Char) :
    ∀ prev, (∀ c ∈ l, c ≠ '_') → usOKAux prev l = true := by
  induction l with
  | nil => intro prev _; rfl
  | cons c t ih =>
    intro prev h
    rw [usOKAux, if_neg (h c (List.mem_cons_self c t))]
    exact ih (some c) (fun c' hc' => h c' (List.mem_cons_of_mem c hc'))

theorem filter_of_no_us (l : List Char) (h : ∀ c ∈ l, c ≠ '_') :
    l.filter (fun c => c ≠ '_') = l := by
  induction l with
  | nil => rfl
  | cons c t ih =>
    have hc := h c (List.mem_cons_self c t)
    have ht : ∀ c' ∈ t, c' ≠ '_' := fun c' hc' => h c' (List.mem_cons_of_mem c hc')
    simp [List.filter_cons, hc, ih ht, ht]
    exact fun a ha => ht a ha

theorem matchKW_none_of_head (k : Char) (ks : List Char) (c : Char) (cs : List Char)
    (h : c.toLower ≠ k) : matchKW (k :: ks) (c :: cs) = none := by
  simp [matchKW, h]

theorem unsignedFloat_numLit (c : Char) (cs : List Char) (hc : (digVal c).isSome = true)
    (M : ℕ) (e : ℤ) (hnum : numLit (c :: cs) = some (M, e)) :
    unsignedFloat (c :: cs) = some (.finite M e false) := by
  obtain ⟨-, -, -, -, -, hi, hn, -, -, -⟩ := digit_facts c hc
  have h1 : matchKW kwInfinity (c :: cs) = none :=
    matchKW_none_of_head 'i' ['n', 'f', 'i', 'n', 'i', 't', 'y'] c cs hi
  have h2 : matchKW kwInf (c :: cs) = none :=
    matchKW_none_of_head 'i' ['n', 'f'] c cs hi
  have h3 : matchKW kwNan (c :: cs) = none :=
    matchKW_none_of_head 'n' ['a', 'n'] c cs hn
  simp only [unsignedFloat, h1, h2, h3, hnum]

theorem pyFloat_clean (b : Bool) (l : List Char) (c0 : Char) (cs0 : List Char)
    (hl : l = c0 :: cs0) (hc0 : (digVal c0).isSome = true)
    (hcl : ∀ c ∈ l, (digVal c).isSome = true ∨ c = '.')
    (M : ℕ) (e : ℤ) (hnum : numLit l = some (M, e)) :
    pyFloat (String.mk ((cond b '-' '+') :: l)) = some (.finite M e b) := by
  have hnws : ∀ c ∈ (cond b '-' '+') :: l, pyWS c = false := by
    intro c hc
    rcases List.mem_cons.mp hc with rfl | hc
    · cases b <;> decide
    · rcases hcl c hc with h | rfl
      · exact (digit_facts c h).2.2.2.2.1
      · decide
  have hnus : ∀ c ∈ (cond b '-' '+') :: l, c ≠ '_' := by
    intro c hc
    rcases List.mem_cons.mp hc with rfl | hc
    · cases b <;> decide
    · rcases hcl c hc with h | rfl
      · exact (digit_facts c h).2.2.2.1
      · decide
  have hus : usOK ((cond b '-' '+') :: l) = true := usOKAux_of_no_us _ none hnus
  simp only [pyFloat, toList_mk, stripWS_eq _ hnws, hus, if_true,
    filter_of_no_us _ hnus]
  cases b with
  | false =>
    show signedFloat ('+' :: l) = some (PyFloatVal.finite M e false)
    rw [show signedFloat ('+' :: l) = unsignedFloat l from rfl, hl,
      unsignedFloat_numLit c0 cs0 hc0 M e (hl ▸ hnum)]
  | true =>
    show signedFloat ('-' :: l) = some (PyFloatVal.finite M e true)
    rw [show signedFloat ('-' :: l) = (unsignedFloat l).map pyNegVal from rfl, hl,
      unsignedFloat_numLit c0 cs0 hc0 M e (hl ▸ hnum)]
    rfl

theorem canon_id_of_class (S : List Char)
    (h : ∀ c ∈ S, (digVal c).isSome = true ∨ c = '.') :
    pyReplacePdot (pyLower (S.map (fun c => if c = '.' then 'p' else c))) = S := by
  unfold pyReplacePdot pyLower
  rw [List.map_map, List.map_map]
  have hfun : ∀ c ∈ S,
      (((fun c => if c = 'p' then '.' else c) ∘ Char.toLower) ∘
        (fun c => if c = '.' then 'p' else c)) c = id c := by
    intro c hc
    rcases h c hc with hd | rfl
    · obtain ⟨hlo, hp, hdot, -⟩ := digit_facts c hd
      simp [Function.comp, if_neg hdot, hlo, if_neg hp]
    · simp [Function.comp]
  rw [List.map_congr_left hfun, List.map_id]

theorem retrieve_hem_mapped (hem sg : Char) (b : Bool) (hd : d_signal hem = some sg)
    (hsg : sg = cond b '-' '+') (hlo : hem.toLower = hem) (hp : hem ≠ 'p')
    (S : List Char) (hcl : ∀ c ∈ S, (digVal c).isSome = true ∨ c = '.')
    (c0 : Char) (cs0 : List Char) (hS : S = c0 :: cs0) (hc0 : (digVal c0).isSome = true)
    (M : ℕ) (e : ℤ) (hnum : numLit S = some (M, e)) :
    retrieve_number (String.mk (hem :: S.map (fun c => if c = '.' then 'p' else c))) =
      .ok (.finite M e b) := by
  have hcanon : pyReplacePdot (pyLower
      ((String.mk (hem :: S.map (fun c => if c = '.' then 'p' else c))).toList)) =
      hem :: S := by
    rw [toList_mk]
    unfold pyReplacePdot pyLower
    simp only [List.map_cons, hlo, if_neg hp]
    have := canon_id_of_class S hcl
    unfold pyReplacePdot pyLower at this
    rw [List.map_map] at this ⊢
    rw [this]
  rw [retrieve_number, hcanon]
  simp only [hd, hsg, pyFloat_clean b S c0 cs0 hS hc0 hcl M e hnum]

theorem format_number_someAxis (f : PyNum) (a : String) (hem : String)
    (h : (if pyGe0 f = true then d_signal_positive a else d_signal_negative a) =
      some hem) :
    format_number f (some a) = .ok (hem ++ absStrP f) := by
  rw [format_number]
  simp only [Option.some_bind, h]
  simp

theorem format_retrieve_float (z : ℤ) (d : ℕ) (hd : 0 < d)
    (hg : natGcd z.natAbs d = 1) (k : ℕ) (hk : decExp d = some k)
    (a : String) (ha : a = "x" ∨ a = "y") :
    ∃ s M e, format_number (.float z d) (some a) = .ok s ∧
      retrieve_number s = .ok (.finite M e (decide (z < 0))) ∧
      (M : ℚ) * (10 : ℚ) ^ e = (z.natAbs : ℚ) / (d : ℚ) := by
  have habs : absStrP (.float z d) =
      String.mk ((fracChars z.natAbs d).map (fun c => if c = '.' then 'p' else c)) := by
    have h1 : ¬((z.natAbs : ℤ) < 0) := by
      simp only [not_lt]
      exact Int.natCast_nonneg z.natAbs
    unfold absStrP
    rw [show pyAbs (.float z d) = .float (z.natAbs : ℤ) d from rfl]
    rw [pyStr, if_neg h1]
    rw [show (z.natAbs : ℤ).natAbs = z.natAbs from Int.natAbs_ofNat z.natAbs, hg,
      Nat.div_one, Nat.div_one, toList_mk]
  obtain ⟨M, e, hnum, hval⟩ := fracChars_numLit z.natAbs d hd k hk
  obtain ⟨c0, cs0, hS, hc0⟩ := fracChars_head z.natAbs d k hk
  have hcl := fracChars_class z.natAbs d k hk
  have main : ∀ (hemC sg : Char) (b : Bool),
      d_signal hemC = some sg → sg = cond b '-' '+' →
      hemC.toLower = hemC → hemC ≠ 'p' →
      retrieve_number (String.mk [hemC] ++ absStrP (.float z d)) =
        .ok (.finite M e b) := by
    intro hemC sg b h2 h3 h4 h5
    rw [habs, append_mk]
    simp only [List.singleton_append]
    exact retrieve_hem_mapped hemC sg b h2 h3 h4 h5 _ hcl c0 cs0 hS hc0 M e hnum
  by_cases hz : z < 0
  · have hge : pyGe0 (.float z d) = false := by
      simp only [pyGe0, decide_eq_false_iff_not]
      omega
    have hb : decide (z < 0) = true := by simp [hz]
    rcases ha with rfl | rfl
    · refine ⟨"w" ++ absStrP (.float z d), M, e,
        format_number_someAxis _ "x" "w" (by rw [hge]; rfl), ?_, hval⟩
      rw [hb, show ("w" : String) = String.mk ['w'] from rfl]
      exact main 'w' '-' true (by decide) rfl (by decide) (by decide)
    · refine ⟨"s" ++ absStrP (.float z d), M, e,
        format_number_someAxis _ "y" "s" (by rw [hge]; rfl), ?_, hval⟩
      rw [hb, show ("s" : String) = String.mk ['s'] from rfl]
      exact main 's' '-' true (by decide) rfl (by decide) (by decide)
  · have hge : pyGe0 (.float z d) = true := by
      simp only [pyGe0, decide_eq_true_eq]
      omega
    have hb : decide (z < 0) = false := by simp [hz]
    rcases ha with rfl | rfl
    · refine ⟨"e" ++ absStrP (.float z d), M, e,
        format_number_someAxis _ "x" "e" (by rw [hge]; rfl), ?_, hval⟩
      rw [hb, show ("e" : String) = String.mk ['e'] from rfl]
      exact main 'e' '+' false (by decide) rfl (by decide) (by decide)
    · refine ⟨"n" ++ absStrP (.float z d), M, e,
        format_number_someAxis _ "y" "n" (by rw [hge]; rfl), ?_, hval⟩
      rw [hb, show ("n" : String) = String.mk ['n'] from rfl]
      exact main 'n' '+' false (by decide) rfl (by decide) (by decide)

/-- Encoding a Python float (given in reduced form `±m.num / m.den`) and
decoding the result recovers the magnitude exactly. -/
theorem roundtrip_rat (m : ℚ) (hm : 0 ≤ m) (k : ℕ) (hk : decExp m.den = some k)
    (a : String) (ha : a = "x" ∨ a = "y") (z : ℤ) (hz : z = m.num ∨ z = -m.num) :
    ∃ s M e, format_number (.float z m.den) (some a) = .ok s ∧
      retrieve_number s = .ok (.finite M e (decide (z < 0))) ∧
      (M : ℚ) * (10 : ℚ) ^ e = m := by
  have hd : 0 < m.den := m.pos
  have habs : z.natAbs = m.num.natAbs := by
    rcases hz with rfl | rfl
    · rfl
    · exact Int.natAbs_neg _
  have hg : natGcd z.natAbs m.den = 1 := by
    rw [natGcd_eq_gcd, habs]
    exact m.reduced
  obtain ⟨s, M, e, h1, h2, h3⟩ := format_retrieve_float z m.den hd hg k hk a ha
  refine ⟨s, M, e, h1, h2, ?_⟩
  rw [h3, habs]
  have h0 : ((m.num.natAbs : ℤ)) = m.num := Int.natAbs_of_nonneg (Rat.num_nonneg.mpr hm)
  have hnum : ((m.num.natAbs : ℕ) : ℚ) = (m.num : ℚ) := by
    rw [← Int.cast_natCast, h0]
  rw [hnum, Rat.num_div_den]

/-! ### The specification's decimal grammar, and `retrieve_number` -/

theorem digitsPre_spec (l : List Char) :
    l = (digitsPre l).1 ++ (digitsPre l).2 ∧ allDigB (digitsPre l).1 = true ∧
      runStop (digitsPre l).2 := by
  induction l with
  | nil => exact ⟨rfl, rfl, Or.inl rfl⟩
  | cons c t ih =>
    by_cases hc : (digVal c).isSome = true
    · rw [digitsPre, if_pos hc]
      refine ⟨by simpa using ih.1, ?_, ih.2.2⟩
      simp only [allDigB, List.all_cons, Bool.and_eq_true]
      exact ⟨hc, ih.2.1⟩
    · rw [digitsPre, if_neg hc]
      exact ⟨rfl, rfl, Or.inr ⟨c, t, rfl, Option.not_isSome_iff_eq_none.mp
        (by simpa using hc)⟩⟩

theorem specDecimal_numLit (L : List Char) (hspec : specIsNonNegDecimal L = true) :
    ∃ c0 cs0, L = c0 :: cs0 ∧ (digVal c0).isSome = true ∧
      (∀ c ∈ L, (digVal c).isSome = true ∨ c = '.') ∧
      ∃ M e, numLit L = some (M, e) ∧ (M : ℚ) * (10 : ℚ) ^ e = specDecVal L := by
  obtain ⟨hLeq, hadig, hstop⟩ := digitsPre_spec L
  rw [specIsNonNegDecimal, Bool.and_eq_true] at hspec
  rcases hpre : digitsPre L with ⟨a, r⟩
  rw [hpre] at hLeq hadig hstop hspec
  simp only at hLeq hadig hstop hspec
  have hane : a ≠ [] := by simpa using hspec.1
  obtain ⟨c0, a', ha'⟩ := List.exists_cons_of_ne_nil hane
  have hmemA : ∀ c ∈ a, (digVal c).isSome = true := by
    intro c hc
    have hall := hadig
    rw [allDigB, List.all_eq_true] at hall
    exact hall c hc
  have hc0 : (digVal c0).isSome = true :=
    hmemA c0 (by rw [ha']; exact List.mem_cons_self _ _)
  rcases hstop with hnil | ⟨ch, cs, hcons, hnone⟩
  · subst hnil
    rw [List.append_nil] at hLeq
    refine ⟨c0, a', by rw [hLeq, ha'], hc0, ?_, ?_⟩
    · intro c hc
      exact Or.inl (hmemA c (by rwa [← hLeq]))
    · refine ⟨valAcc 0 a, 0, ?_, ?_⟩
      · rw [hLeq]
        exact numLit_int_only _ hane hadig
      · rw [specDecVal, hpre]
        simp
  · subst hcons
    have hspec2 := hspec.2
    simp only [Bool.and_eq_true, decide_eq_true_eq] at hspec2
    obtain ⟨⟨hdot, hbne⟩, hbrest⟩ := hspec2
    subst hdot
    obtain ⟨hbeq, hbdig, -⟩ := digitsPre_spec cs
    rcases hpreb : digitsPre cs with ⟨b1, b2⟩
    rw [hpreb] at hbeq hbdig hbne hbrest
    simp only at hbeq hbdig hbne hbrest
    have hbne' : b1 ≠ [] := by simpa using hbne
    have hbrest' : b2 = [] := by simpa using hbrest
    subst hbrest'
    rw [List.append_nil] at hbeq
    rw [hbeq] at hLeq
    have hmemB : ∀ c ∈ b1, (digVal c).isSome = true := by
      intro c hc
      have hall := hbdig
      rw [allDigB, List.all_eq_true] at hall
      exact hall c hc
    refine ⟨c0, a' ++ '.' :: b1, by rw [hLeq, ha']; rfl, hc0, ?_, ?_⟩
    · intro c hc
      rw [hLeq] at hc
      rcases List.mem_append.mp hc with hc | hc
      · exact Or.inl (hmemA c hc)
      · rcases List.mem_cons.mp hc with rfl | hc
        · exact Or.inr rfl
        · exact Or.inl (hmemB c hc)
    · refine ⟨valAcc 0 a * 10 ^ b1.length + valAcc 0 b1, -((b1.length : ℕ) : ℤ), ?_, ?_⟩
      · rw [hLeq]
        exact numLit_int_frac _ _ hane hadig hbne' hbdig
      · rw [specDecVal, hpre]
        simp only
        rw [hpreb]
        have hne10 : ((10 : ℚ) ^ b1.length) ≠ 0 := by positivity
        rw [zpow_neg, zpow_natCast]
        push_cast
        field_simp

theorem retrieve_number_eq (s : String) (c : Char) (rest : List Char)
    (h : s.toList = c :: rest) :
    retrieve_number s =
      (match d_signal (if c.toLower = 'p' then '.' else c.toLower) with
       | none => .error .keyError
       | some sg =>
         match pyFloat (String.mk (sg :: pyReplacePdot (pyLower rest))) with
         | some v => .ok v
         | none => .error .valueError) := by
  rw [retrieve_number, h]
  rfl

theorem d_signal_eq_none_iff (x : Char) :
    d_signal x = none ↔ ¬(x = 'n' ∨ x = 's' ∨ x = 'e' ∨ x = 'w') := by
  constructor
  · intro hnone hdisj
    rcases hdisj with rfl | rfl | rfl | rfl <;> simp [d_signal] at hnone
  · intro hnot
    push_neg at hnot
    obtain ⟨h1, h2, h3, h4⟩ := hnot
    rw [d_signal, if_neg h4, if_neg h2, if_neg h1, if_neg h3]

theorem d_signal_pdot_none_iff (x : Char) :
    d_signal (if x = 'p' then '.' else x) = none ↔
      ¬(x = 'n' ∨ x = 's' ∨ x = 'e' ∨ x = 'w') := by
  by_cases hx : x = 'p'
  · subst hx
    decide
  · rw [if_neg hx]
    exact d_signal_eq_none_iff x

theorem retrieve_keyError_iff (s : String) (c : Char) (rest : List Char)
    (h : s.toList = c :: rest) :
    retrieve_number s = .error .keyError ↔
      ¬(c.toLower = 'n' ∨ c.toLower = 's' ∨ c.toLower = 'e' ∨ c.toLower = 'w') := by
  rw [retrieve_number_eq s c rest h]
  rcases hds : d_signal (if c.toLower = 'p' then '.' else c.toLower) with _ | sg
  · simp only
    constructor
    · intro _
      exact (d_signal_pdot_none_iff c.toLower).mp hds
    · intro _
      trivial
  · simp only
    constructor
    · intro hcontra
      rcases hpf : pyFloat (String.mk (sg :: pyReplacePdot (pyLower rest))) with _ | v <;>
        simp [hpf] at hcontra
    · intro hnot
      have := (d_signal_pdot_none_iff c.toLower).mpr hnot
      rw [hds] at this
      exact absurd this (by simp)

theorem retrieve_spec_success (s : String) (c : Char) (rest : List Char)
    (h : s.toList = c :: rest)
    (hspec : specIsNonNegDecimal (pyReplacePdot (pyLower rest)) = true) :
    ((c.toLower = 'n' ∨ c.toLower = 'e') →
      ∃ M e, retrieve_number s = .ok (.finite M e false) ∧
        finVal M e false = specDecVal (pyReplacePdot (pyLower rest))) ∧
    ((c.toLower = 's' ∨ c.toLower = 'w') →
      ∃ M e, retrieve_number s = .ok (.finite M e true) ∧
        finVal M e true = -specDecVal (pyReplacePdot (pyLower rest))) := by
  obtain ⟨c0, cs0, hL, hc0, hcl, M, e, hnum, hvq⟩ :=
    specDecimal_numLit (pyReplacePdot (pyLower rest)) hspec
  constructor
  · intro hpos
    refine ⟨M, e, ?_, ?_⟩
    · rw [retrieve_number_eq s c rest h]
      have hsig : d_signal (if c.toLower = 'p' then '.' else c.toLower) = some '+' := by
        rcases hpos with hc | hc <;> rw [hc] <;> decide
      simp only [hsig]
      rw [show ('+' : Char) = cond false '-' '+' from rfl,
        pyFloat_clean false _ c0 cs0 hL hc0 hcl M e hnum]
    · rw [finVal]
      simpa using hvq
  · intro hneg
    refine ⟨M, e, ?_, ?_⟩
    · rw [retrieve_number_eq s c rest h]
      have hsig : d_signal (if c.toLower = 'p' then '.' else c.toLower) = some '-' := by
        rcases hneg with hc | hc <;> rw [hc] <;> decide
      simp only [hsig]
      rw [show ('-' : Char) = cond true '-' '+' from rfl,
        pyFloat_clean true _ c0 cs0 hL hc0 hcl M e hnum]
    · rw [finVal, ← hvq]
      simp [mul_assoc]

/-! ### The grid: `np_arange` and `buildCells` -/

theorem ceilIntNat_eq (p : ℤ) (q : ℕ) :
    ceilIntNat p q = ⌈(p : ℚ) / (q : ℚ)⌉ := by
  have h : ((p : ℚ)) / (q : ℚ) = -(((-p : ℤ) : ℚ) / ((q : ℕ) : ℚ)) := by
    push_cast
    ring
  rw [ceilIntNat, h, Int.ceil_neg, Rat.floor_intCast_div_natCast]

theorem toPair_den_pos (p : PyNum) (hv : p.valid) : 0 < p.toPair.2 := by
  cases p with
  | int z => exact Nat.one_pos
  | float n d => exact hv
  | negZeroF => exact Nat.one_pos

theorem toRat_pos_iff (p : PyNum) (hv : p.valid) :
    0 < p.toRat ↔ 0 < p.toPair.1 := by
  have hd : (0 : ℚ) < (p.toPair.2 : ℚ) := by exact_mod_cast toPair_den_pos p hv
  rw [PyNum.toRat, lt_div_iff hd, zero_mul]
  exact_mod_cast Iff.rfl

theorem toRat_neg_iff (p : PyNum) (hv : p.valid) :
    p.toRat < 0 ↔ p.toPair.1 < 0 := by
  have hd : (0 : ℚ) < (p.toPair.2 : ℚ) := by exact_mod_cast toPair_den_pos p hv
  rw [PyNum.toRat, div_lt_iff hd, zero_mul]
  exact_mod_cast Iff.rfl

theorem toRat_zero_iff (p : PyNum) (hv : p.valid) :
    p.toRat = 0 ↔ p.toPair.1 = 0 := by
  have hd : ((p.toPair.2 : ℚ)) ≠ 0 := by
    have := toPair_den_pos p hv
    positivity
  rw [PyNum.toRat, div_eq_zero_iff]
  simp [hd]

theorem isInt_exists (p : PyNum) (h : p.isInt = true) : ∃ z, p = .int z := by
  cases p with
  | int z => exact ⟨z, rfl⟩
  | float n d => simp [PyNum.isInt] at h
  | negZeroF => simp [PyNum.isInt] at h

theorem getD_map_range (n i : ℕ) (h : i < n) (f : ℕ → PyNum) (d : PyNum) :
    ((List.range n).map f).getD i d = f i := by
  rw [List.getD_eq_getElem?_getD]
  simp [List.getElem?_map, List.getElem?_range, h]

theorem np_arange_some (start stop step : PyNum)
    (hva : start.valid) (hvs : step.valid) (hsn : step.toPair.1 ≠ 0) :
    ∃ xs, np_arange start stop step = some xs ∧
      xs.length = arangeLen start stop step ∧
      ∀ i, i < xs.length → (xs.getD i (.int 0)).toRat = start.toRat + i * step.toRat := by
  rw [np_arange, if_neg hsn]
  have had : (0 : ℚ) < (start.toPair.2 : ℚ) := by exact_mod_cast toPair_den_pos start hva
  have hsd : (0 : ℚ) < (step.toPair.2 : ℚ) := by exact_mod_cast toPair_den_pos step hvs
  by_cases hInt : (start.isInt && stop.isInt && step.isInt) = true
  · rw [if_pos hInt]
    simp only [Bool.and_eq_true] at hInt
    obtain ⟨za, ha⟩ := isInt_exists start hInt.1.1
    obtain ⟨zs, hs⟩ := isInt_exists step hInt.2
    refine ⟨_, rfl, by simp, ?_⟩
    intro i hi
    rw [List.length_map, List.length_range] at hi
    rw [getD_map_range _ i hi]
    subst ha hs
    simp only [PyNum.toRat, PyNum.toPair]
    push_cast
    ring
  · rw [if_neg hInt]
    refine ⟨_, rfl, by simp, ?_⟩
    intro i hi
    rw [List.length_map, List.length_range] at hi
    rw [getD_map_range _ i hi]
    rcases hps : start.toPair with ⟨an, ad⟩
    rcases hpt : step.toPair with ⟨sn, sd⟩
    rw [hps] at had
    rw [hpt] at hsd
    simp only at had hsd
    simp only [PyNum.toRat]
    rw [hps, hpt]
    simp only [PyNum.toPair]
    have hadne : ((ad : ℚ)) ≠ 0 := ne_of_gt had
    have hsdne : ((sd : ℚ)) ≠ 0 := ne_of_gt hsd
    push_cast
    field_simp

theorem np_arange_len_zero_pos (start stop step : PyNum)
    (hva : start.valid) (hvb : stop.valid) (hvs : step.valid)
    (hsn : 0 < step.toPair.1) (hle : stop.toRat ≤ start.toRat) :
    arangeLen start stop step = 0 := by
  have had : (0 : ℚ) < (start.toPair.2 : ℚ) := by exact_mod_cast toPair_den_pos start hva
  have hbd : (0 : ℚ) < (stop.toPair.2 : ℚ) := by exact_mod_cast toPair_den_pos stop hvb
  have hnum : (stop.toPair.1 * start.toPair.2 - start.toPair.1 * stop.toPair.2)
      * step.toPair.2 ≤ 0 := by
    have h1 : (stop.toPair.1 : ℚ) * start.toPair.2 ≤ start.toPair.1 * stop.toPair.2 := by
      rw [PyNum.toRat, PyNum.toRat, div_le_div_iff hbd had] at hle
      exact hle
    have h1z : stop.toPair.1 * start.toPair.2 ≤ start.toPair.1 * stop.toPair.2 := by
      exact_mod_cast h1
    have h2 : (0 : ℤ) ≤ step.toPair.2 := Int.natCast_nonneg _
    nlinarith
  rw [arangeLen, if_pos hsn, ceilIntNat_eq]
  have hq : ((stop.toPair.1 * start.toPair.2 - start.toPair.1 * stop.toPair.2)
      * step.toPair.2 : ℤ) ≤ (0 : ℤ) := hnum
  have hceil : (⌈(((stop.toPair.1 * start.toPair.2 - start.toPair.1 * stop.toPair.2)
      * step.toPair.2 : ℤ) : ℚ) /
      ((start.toPair.2 * stop.toPair.2 * step.toPair.1.toNat : ℕ) : ℚ)⌉ : ℤ) ≤ 0 := by
    rw [show ((0 : ℤ)) = ⌈(0 : ℚ)⌉ from by simp]
    apply Int.ceil_le_ceil
    apply div_nonpos_of_nonpos_of_nonneg
    · exact_mod_cast hq
    · positivity
  omega

theorem np_arange_len_zero_neg (start stop step : PyNum)
    (hva : start.valid) (hvb : stop.valid) (hvs : step.valid)
    (hsn : step.toPair.1 < 0) (hle : start.toRat ≤ stop.toRat) :
    arangeLen start stop step = 0 := by
  have had : (0 : ℚ) < (start.toPair.2 : ℚ) := by exact_mod_cast toPair_den_pos start hva
  have hbd : (0 : ℚ) < (stop.toPair.2 : ℚ) := by exact_mod_cast toPair_den_pos stop hvb
  have hnum : 0 ≤ (stop.toPair.1 * start.toPair.2 - start.toPair.1 * stop.toPair.2)
      * step.toPair.2 := by
    have h1 : (start.toPair.1 : ℚ) * stop.toPair.2 ≤ stop.toPair.1 * start.toPair.2 := by
      rw [PyNum.toRat, PyNum.toRat, div_le_div_iff had hbd] at hle
      exact hle
    have h1z : start.toPair.1 * stop.toPair.2 ≤ stop.toPair.1 * start.toPair.2 := by
      exact_mod_cast h1
    have h2 : (0 : ℤ) ≤ step.toPair.2 := Int.natCast_nonneg _
    nlinarith
  rw [arangeLen, if_neg (by omega), ceilIntNat_eq]
  have hceil : (⌈(((-((stop.toPair.1 * start.toPair.2 - start.toPair.1 * stop.toPair.2)
      * step.toPair.2) : ℤ) : ℚ)) /
      ((start.toPair.2 * stop.toPair.2 * (-step.toPair.1).toNat : ℕ) : ℚ)⌉ : ℤ) ≤ 0 := by
    rw [show ((0 : ℤ)) = ⌈(0 : ℚ)⌉ from by simp]
    apply Int.ceil_le_ceil
    apply div_nonpos_of_nonpos_of_nonneg
    · exact_mod_cast (by omega : -((stop.toPair.1 * start.toPair.2 -
        start.toPair.1 * stop.toPair.2) * step.toPair.2) ≤ (0 : ℤ))
    · positivity
  omega

theorem mem_buildCells (xs ys : List PyNum) (c : GridCell) :
    c ∈ buildCells xs ys ↔
      ∃ i j, i < xs.length - 1 ∧ j < ys.length - 1 ∧ c = cellOf xs ys i j := by
  simp only [buildCells, List.mem_flatMap, List.mem_map, List.mem_range]
  constructor
  · rintro ⟨i, hi, j, hj, rfl⟩
    exact ⟨i, j, hi, hj, rfl⟩
  · rintro ⟨i, j, hi, hj, rfl⟩
    exact ⟨i, hi, j, hj, rfl⟩

theorem length_buildCells (xs ys : List PyNum) :
    (buildCells xs ys).length = (xs.length - 1) * (ys.length - 1) := by
  rw [buildCells, List.length_flatMap]
  have hconst : ∀ i ∈ List.range (xs.length - 1),
      ((List.length ∘ fun i => (List.range (ys.length - 1)).map (cellOf xs ys i)) i) =
        (fun _ => ys.length - 1) i := by
    intro i _
    simp
  rw [List.map_congr_left hconst, List.map_const', List.sum_replicate, List.length_range,
    smul_eq_mul]

theorem buildCells_eq_nil (xs ys : List PyNum)
    (h : xs.length - 1 = 0 ∨ ys.length - 1 = 0) : buildCells xs ys = [] := by
  rcases h with h | h
  · rw [buildCells, h]
    rfl
  · rw [buildCells, h]
    simp

/-! ### The claims -/

/-- Claim C7: `create_rectangle_wkt` returns a closed 5-point polygon ring
visiting the corners in the order (xMin,yMin), (xMin,yMax), (xMax,yMax),
(xMax,yMin), (xMin,yMin), formatted as `POLYGON((x1 y1, x2 y2, ...))` with
default numeric-to-string rendering; in particular
`create_rectangle_wkt 0 1 0 1 = "POLYGON((0 0, 0 1, 1 1, 1 0, 0 0))"`. -/
theorem C7_wkt_shape :
    (∀ x_min x_max y_min y_max : PyNum,
      create_rectangle_wkt x_min x_max y_min y_max =
        "POLYGON((" ++ pyStr x_min ++ " " ++ pyStr y_min ++ ", " ++
          pyStr x_min ++ " " ++ pyStr y_max ++ ", " ++
          pyStr x_max ++ " " ++ pyStr y_max ++ ", " ++
          pyStr x_max ++ " " ++ pyStr y_min ++ ", " ++
          pyStr x_min ++ " " ++ pyStr y_min ++ "))") ∧
    create_rectangle_wkt (.int 0) (.int 1) (.int 0) (.int 1) =
      "POLYGON((0 0, 0 1, 1 1, 1 0, 0 0))" :=
  ⟨fun _ _ _ _ => rfl, by decide⟩

/-- Claim C8: `get_code` encodes its four bounds through `format_number`
(x axis for the x bounds, y axis for the y bounds) and joins the four
encodings with `-` in the fixed order [xMin, xMax, yMin, yMax]; in
particular `get_code (-10) (-9) (-5) (-4) = "w10-w9-s5-s4"`. -/
theorem C8_tile_code :
    (∀ (x_min x_max y_min y_max : PyNum) (s1 s2 s3 s4 : String),
      format_number x_min (some "x") = .ok s1 →
      format_number x_max (some "x") = .ok s2 →
      format_number y_min (some "y") = .ok s3 →
      format_number y_max (some "y") = .ok s4 →
      get_code x_min x_max y_min y_max =
        .ok (String.intercalate "-" [s1, s2, s3, s4])) ∧
    get_code (.int (-10)) (.int (-9)) (.int (-5)) (.int (-4)) =
      .ok "w10-w9-s5-s4" := by
  constructor
  · intro a b c d s1 s2 s3 s4 h1 h2 h3 h4
    rw [get_code, h1, h2, h3, h4]
    rfl
  · decide

/-- Witness for C8 at a concrete input. -/
theorem C8_tile_code_witness :
    get_code (.int 1) (.int 2) (.int 3) (.int 4) =
      .ok (String.intercalate "-" ["e1", "e2", "n3", "n4"]) :=
  C8_tile_code.1 (.int 1) (.int 2) (.int 3) (.int 4) "e1" "e2" "n3" "n4"
    (by decide) (by decide) (by decide) (by decide)

/-- Claim C4 (code bug): calling `format_number` with `axis=None` raises
`KeyError` at the dictionary lookup `d_signal_positive[axis]`, which runs
*before* the dead `if axis is None: s_hem = ""` branch; it does not return
the numeric-only string. -/
theorem C4_axis_none_keyerror :
    format_number (.float 1 2) none = .error .keyError ∧
    format_number (.int 7) none = .error .keyError := by decide

/-- Claim C10: `-0.0` compares `>= 0`, so `format_number` gives it the
positive-hemisphere prefix (`n` for y, `e` for x), and any zero value with
a well-formed representation gets an `n` or `e` prefix, never `s` or `w`. -/
theorem C10_negzero_positive_prefix :
    format_number .negZeroF (some "y") = .ok "n0p0" ∧
    format_number .negZeroF (some "x") = .ok "e0p0" ∧
    ∀ (f : PyNum) (a s : String), f.valid → f.toRat = 0 →
      format_number f (some a) = .ok s →
      ∃ r, s = "n" ++ r ∨ s = "e" ++ r := by
  refine ⟨by decide, by decide, ?_⟩
  intro f a s hv h0 hok
  have h1 : f.toPair.1 = 0 := (toRat_zero_iff f hv).mp h0
  have hge : pyGe0 f = true := by
    cases f with
    | int z =>
      simp only [PyNum.toPair] at h1
      simp [pyGe0, h1]
    | float n d =>
      simp only [PyNum.toPair] at h1
      simp [pyGe0, h1]
    | negZeroF => rfl
  rw [format_number] at hok
  rw [hge] at hok
  simp only [if_true, Option.some_bind] at hok
  by_cases hay : a = "y"
  · subst hay
    rw [show d_signal_positive "y" = some "n" from rfl] at hok
    simp only [reduceCtorEq, if_false] at hok
    refine ⟨absStrP f, Or.inl ?_⟩
    have := Except.ok.inj hok
    rw [← this]
  · by_cases hax : a = "x"
    · subst hax
      rw [show d_signal_positive "x" = some "e" from rfl] at hok
      simp only [reduceCtorEq, if_false] at hok
      refine ⟨absStrP f, Or.inr ?_⟩
      have := Except.ok.inj hok
      rw [← this]
    · rw [show d_signal_positive a = none from by
        rw [d_signal_positive, if_neg hay, if_neg hax]] at hok
      simp at hok

/-- Witness for C10's universally quantified clause at `-0.0` on axis y. -/
theorem C10_negzero_positive_prefix_witness :
    ∃ r, ("n0p0" : String) = "n" ++ r ∨ ("n0p0" : String) = "e" ++ r :=
  C10_negzero_positive_prefix.2.2 .negZeroF "y" "n0p0" trivial
    (by norm_num [PyNum.toRat, PyNum.toPair]) (by decide)

/-- Claim C9: `get_grid_df` is a pure function of its arguments - the
embedding has no other inputs (no randomness, no time, no shared state),
so two invocations with identical arguments give identical tables. -/
theorem C9_deterministic :
    ∀ step xs_min xs_max ys_min ys_max : PyNum,
      get_grid_df step xs_min xs_max ys_min ys_max =
        get_grid_df step xs_min xs_max ys_min ys_max :=
  fun _ _ _ _ _ => rfl

/-- Counterexample to claim C1 as stated: `get_grid_df(1, 0, 3, 0, 2)`
produces 2 cells, not 6 - `np.arange` excludes the stop value and the
loops run to `len - 1`, so the final band of each axis is dropped. -/
theorem C1_counterexample :
    (get_grid_df (.int 1) (.int 0) (.int 3) (.int 0) (.int 2)).map List.length =
      some 2 ∧ (2 : ℕ) ≠ 6 := by decide

/-- Claim C1 (amended): `get_grid_df(1, 0, 3, 0, 2)` returns exactly 2
cells with ids 1..2 in x-major/y-minor order; the first cell has bounds
(0,1,0,1) and the last (1,2,0,1). -/
theorem C1_amended :
    get_grid_df (.int 1) (.int 0) (.int 3) (.int 0) (.int 2) = some
      [{ Id := 1, tile_code := "e0-e1-n0-n1", x_min := .int 0, x_max := .int 1,
         y_min := .int 0, y_max := .int 1,
         geometry := "POLYGON((0 0, 0 1, 1 1, 1 0, 0 0))" },
       { Id := 2, tile_code := "e1-e2-n0-n1", x_min := .int 1, x_max := .int 2,
         y_min := .int 0, y_max := .int 1,
         geometry := "POLYGON((1 0, 1 1, 2 1, 2 0, 1 0))" }] := by decide

/-- Counterexample to claim C5 as stated: on input `"n5p"` the hemisphere
is valid and the remainder `5p` is *not* a non-negative decimal of the
spec's `<digits>[p<digits>]` form, yet the decoder succeeds (Python's
`float` accepts `"+5."`), so `InvalidNumber` does not occur exactly when
the remainder fails the grammar. -/
theorem C5_counterexample :
    retrieve_number "n5p" = .ok (.finite 5 0 false) ∧
    specIsNonNegDecimal (pyReplacePdot (pyLower "5p".toList)) = false ∧
    (Except.ok (PyFloatVal.finite 5 0 false) : Except PyErr PyFloatVal) ≠
      .error .valueError := by decide

/-- Claim C5 (amended): on a nonempty input, `retrieve_number` fails with
`KeyError` (InvalidHemisphere) exactly when the first character is not one
of N, S, E, W case-insensitively; when the hemisphere is valid and the
remainder (lower-cased, with `p` as the decimal point) is a non-negative
decimal of the spec's `<digits>[p<digits>]` form, decoding succeeds and
returns the magnitude signed by the hemisphere (N,E positive; S,W
negative); and a `ValueError` (InvalidNumber) can only happen for
remainders outside that form - the converse fails, see the
counterexample. -/
theorem C5_amended (s : String) (c : Char) (rest : List Char)
    (h : s.toList = c :: rest) :
    (retrieve_number s = .error .keyError ↔
      ¬(c.toLower = 'n' ∨ c.toLower = 's' ∨ c.toLower = 'e' ∨ c.toLower = 'w')) ∧
    (specIsNonNegDecimal (pyReplacePdot (pyLower rest)) = true →
      ((c.toLower = 'n' ∨ c.toLower = 'e') →
        ∃ M e, retrieve_number s = .ok (.finite M e false) ∧
          finVal M e false = specDecVal (pyReplacePdot (pyLower rest))) ∧
      ((c.toLower = 's' ∨ c.toLower = 'w') →
        ∃ M e, retrieve_number s = .ok (.finite M e true) ∧
          finVal M e true = -specDecVal (pyReplacePdot (pyLower rest)))) ∧
    (retrieve_number s = .error .valueError →
      specIsNonNegDecimal (pyReplacePdot (pyLower rest)) = false) := by
  refine ⟨retrieve_keyError_iff s c rest h,
    fun hs => retrieve_spec_success s c rest h hs, ?_⟩
  intro hval
  by_contra hspec
  rw [Bool.not_eq_false] at hspec
  by_cases hkey : c.toLower = 'n' ∨ c.toLower = 's' ∨ c.toLower = 'e' ∨ c.toLower = 'w'
  · have hsucc := retrieve_spec_success s c rest h hspec
    rcases hkey with hc | hc | hc | hc
    · obtain ⟨M, e, hok, -⟩ := hsucc.1 (Or.inl hc)
      rw [hok] at hval
      exact absurd hval (by simp)
    · obtain ⟨M, e, hok, -⟩ := hsucc.2 (Or.inl hc)
      rw [hok] at hval
      exact absurd hval (by simp)
    · obtain ⟨M, e, hok, -⟩ := hsucc.1 (Or.inr hc)
      rw [hok] at hval
      exact absurd hval (by simp)
    · obtain ⟨M, e, hok, -⟩ := hsucc.2 (Or.inr hc)
      rw [hok] at hval
      exact absurd hval (by simp)
  · have hkerr := (retrieve_keyError_iff s c rest h).mpr hkey
    rw [hval] at hkerr
    exact absurd hkerr (by simp)

/-- Witness for C5 at the concrete input `"s2p5"`, which decodes to the
south-signed magnitude 2.5. -/
theorem C5_amended_witness :
    ∃ M e, retrieve_number "s2p5" = .ok (.finite M e true) ∧
      finVal M e true = -specDecVal (pyReplacePdot (pyLower "2p5".toList)) :=
  ((C5_amended "s2p5" 's' "2p5".toList (by decide)).2.1 (by decide)).2
    (Or.inl (by decide))

/-- Claim C6: round trip.  For a decimal-representable magnitude `m ≥ 0`
(every float value in the plain-decimal printing regime), an axis in
{x, y} and a sign, decoding the encoded signed coordinate recovers the
signed value exactly (hence within any floating-point tolerance). -/
theorem C6_roundtrip (m : ℚ) (hm : 0 ≤ m) (hrep : (decExp m.den).isSome = true)
    (a : String) (ha : a = "x" ∨ a = "y")
    (sgn : ℚ) (hs : sgn = 1 ∨ sgn = -1) :
    ∃ s M e b, format_number (.float (sgn * m).num (sgn * m).den) (some a) = .ok s ∧
      retrieve_number s = .ok (.finite M e b) ∧ finVal M e b = sgn * m := by
  obtain ⟨k, hk⟩ := Option.isSome_iff_exists.mp hrep
  rcases hs with rfl | rfl
  · rw [one_mul]
    obtain ⟨s, M, e, h1, h2, h3⟩ := roundtrip_rat m hm k hk a ha m.num (Or.inl rfl)
    have hb : decide (m.num < 0) = false := by
      simp only [decide_eq_false_iff_not, not_lt]
      exact Rat.num_nonneg.mpr hm
    rw [hb] at h2
    refine ⟨s, M, e, false, h1, h2, ?_⟩
    rw [finVal]
    simpa using h3
  · rw [neg_one_mul]
    obtain ⟨s, M, e, h1, h2, h3⟩ := roundtrip_rat m hm k hk a ha (-m.num) (Or.inr rfl)
    have hnum : (-m).num = -m.num := Rat.num_neg_eq_neg_num m
    have hden : (-m).den = m.den := Rat.den_neg_eq_den m
    by_cases hm0 : m = 0
    · subst hm0
      have hz : (-(0 : ℚ).num) = (0 : ℚ).num := by simp
      rw [hz] at h1 h2
      have hb : decide ((0 : ℚ).num < 0) = false := by simp
      rw [hb] at h2
      refine ⟨s, M, e, false, ?_, h2, ?_⟩
      · rw [neg_zero]
        exact h1
      · rw [finVal, neg_zero]
        simpa using h3
    · have hmpos : 0 < m := lt_of_le_of_ne hm (Ne.symm hm0)
      have hb : decide (-m.num < 0) = true := by
        simp only [decide_eq_true_eq]
        have := Rat.num_pos.mpr hmpos
        omega
      rw [hb] at h2
      refine ⟨s, M, e, true, ?_, h2, ?_⟩
      · rw [hnum, hden]
        exact h1
      · rw [finVal]
        simp only [cond_true]
        rw [mul_assoc, h3]
        ring

/-- Witness for C6 at magnitude 3, axis x, negative sign. -/
theorem C6_roundtrip_witness :
    (0 : ℚ) ≤ 3 ∧
    (∃ s M e b,
      format_number (.float ((-1 : ℚ) * 3).num ((-1 : ℚ) * 3).den) (some "x") = .ok s ∧
      retrieve_number s = .ok (.finite M e b) ∧ finVal M e b = (-1 : ℚ) * 3) :=
  ⟨by norm_num, C6_roundtrip 3 (by norm_num) (by rw [Rat.den_ofNat]; decide) "x"
    (Or.inl rfl) (-1) (Or.inr rfl)⟩

/-- Counterexample to claim C3 as stated: with `step = 0` (which satisfies
`step <= 0`) and a non-degenerate box, `get_grid_df` does not return an
empty table - `np.arange` raises `ZeroDivisionError` (modelled as
`none`). -/
theorem C3_counterexample :
    get_grid_df (.int 0) (.int 0) (.int 3) (.int 0) (.int 2) = none ∧
    (none : Option (List GridCell)) ≠ some [] := by decide

/-- Claim C3 (amended): for `step ≠ 0` the call raises no error, and the
table is empty whenever the step sign runs away from the box: for
`step > 0` when `xMax ≤ xMin` or `yMax ≤ yMin`, and for `step < 0` when
`xMin ≤ xMax` or `yMin ≤ yMax`; `step = 0` raises `ZeroDivisionError`
instead of returning an empty table. -/
theorem C3_amended (step xs_min xs_max ys_min ys_max : PyNum)
    (hvs : step.valid) (hva : xs_min.valid) (hvb : xs_max.valid)
    (hvc : ys_min.valid) (hvd : ys_max.valid) :
    (step.toRat = 0 → get_grid_df step xs_min xs_max ys_min ys_max = none) ∧
    (0 < step.toRat → (xs_max.toRat ≤ xs_min.toRat ∨ ys_max.toRat ≤ ys_min.toRat) →
      get_grid_df step xs_min xs_max ys_min ys_max = some []) ∧
    (step.toRat < 0 → (xs_min.toRat ≤ xs_max.toRat ∨ ys_min.toRat ≤ ys_max.toRat) →
      get_grid_df step xs_min xs_max ys_min ys_max = some []) := by
  refine ⟨?_, ?_, ?_⟩
  · intro h0
    have hsn : step.toPair.1 = 0 := (toRat_zero_iff step hvs).mp h0
    rw [get_grid_df, np_arange, if_pos hsn]
    rfl
  · intro hpos hor
    have hsn : 0 < step.toPair.1 := (toRat_pos_iff step hvs).mp hpos
    have hsn' : step.toPair.1 ≠ 0 := ne_of_gt hsn
    obtain ⟨xs, hxs, hxl, -⟩ := np_arange_some xs_min xs_max step hva hvs hsn'
    obtain ⟨ys, hys, hyl, -⟩ := np_arange_some ys_min ys_max step hvc hvs hsn'
    rw [get_grid_df, hxs, hys]
    simp only [Option.some_bind, Option.some.injEq]
    rcases hor with hle | hle
    · refine buildCells_eq_nil xs ys (Or.inl ?_)
      rw [hxl, np_arange_len_zero_pos xs_min xs_max step hva hvb hvs hsn hle]
    · refine buildCells_eq_nil xs ys (Or.inr ?_)
      rw [hyl, np_arange_len_zero_pos ys_min ys_max step hvc hvd hvs hsn hle]
  · intro hneg hor
    have hsn : step.toPair.1 < 0 := (toRat_neg_iff step hvs).mp hneg
    have hsn' : step.toPair.1 ≠ 0 := ne_of_lt hsn
    obtain ⟨xs, hxs, hxl, -⟩ := np_arange_some xs_min xs_max step hva hvs hsn'
    obtain ⟨ys, hys, hyl, -⟩ := np_arange_some ys_min ys_max step hvc hvs hsn'
    rw [get_grid_df, hxs, hys]
    simp only [Option.some_bind, Option.some.injEq]
    rcases hor with hle | hle
    · refine buildCells_eq_nil xs ys (Or.inl ?_)
      rw [hxl, np_arange_len_zero_neg xs_min xs_max step hva hvb hvs hsn hle]
    · refine buildCells_eq_nil xs ys (Or.inr ?_)
      rw [hyl, np_arange_len_zero_neg ys_min ys_max step hvc hvd hvs hsn hle]

/-- Witness for C3 at concrete inputs exercising all three branches. -/
theorem C3_amended_witness :
    get_grid_df (.int 0) (.int 0) (.int 3) (.int 0) (.int 2) = none ∧
    get_grid_df (.int 1) (.int 3) (.int 0) (.int 0) (.int 2) = some [] ∧
    get_grid_df (.int (-1)) (.int 0) (.int 3) (.int 0) (.int 2) = some [] := by
  refine ⟨?_, ?_, ?_⟩
  · exact (C3_amended (.int 0) (.int 0) (.int 3) (.int 0) (.int 2)
      trivial trivial trivial trivial trivial).1
      (by norm_num [PyNum.toRat, PyNum.toPair])
  · exact (C3_amended (.int 1) (.int 3) (.int 0) (.int 0) (.int 2)
      trivial trivial trivial trivial trivial).2.1
      (by norm_num [PyNum.toRat, PyNum.toPair])
      (Or.inl (by norm_num [PyNum.toRat, PyNum.toPair]))
  · exact (C3_amended (.int (-1)) (.int 0) (.int 3) (.int 0) (.int 2)
      trivial trivial trivial trivial trivial).2.2
      (by norm_num [PyNum.toRat, PyNum.toPair])
      (Or.inl (by norm_num [PyNum.toRat, PyNum.toPair]))

/-- Selecting the band index that covers a coordinate inside the truncated
box: for `0 < S`, `2 ≤ N` and `X ≤ x ≤ X + (N-1)·S` there is `i < N-1`
with `X + i·S ≤ x ≤ X + (i+1)·S`. -/
theorem cover_index (X S : ℚ) (hS : 0 < S) (N : ℕ) (hN : 2 ≤ N) (x : ℚ)
    (h1 : X ≤ x) (h2 : x ≤ X + ((N - 1 : ℕ) : ℚ) * S) :
    ∃ i, i < N - 1 ∧ X + (i : ℚ) * S ≤ x ∧ x ≤ X + ((i + 1 : ℕ) : ℚ) * S := by
  have hfx0 : 0 ≤ ⌊(x - X) / S⌋ :=
    Int.floor_nonneg.mpr (div_nonneg (by linarith) hS.le)
  refine ⟨min (⌊(x - X) / S⌋).toNat (N - 2), ?_, ?_, ?_⟩
  · have := min_le_right (⌊(x - X) / S⌋).toNat (N - 2)
    omega
  · have hle1 : ((min (⌊(x - X) / S⌋).toNat (N - 2) : ℕ) : ℚ) ≤
        ((⌊(x - X) / S⌋).toNat : ℚ) :=
      Nat.cast_le.mpr (min_le_left _ _)
    have hle2 : (((⌊(x - X) / S⌋).toNat : ℕ) : ℚ) = ((⌊(x - X) / S⌋ : ℤ) : ℚ) := by
      rw [← Int.cast_natCast, Int.toNat_of_nonneg hfx0]
    have hle3 : ((⌊(x - X) / S⌋ : ℤ) : ℚ) ≤ (x - X) / S := Int.floor_le _
    have : ((min (⌊(x - X) / S⌋).toNat (N - 2) : ℕ) : ℚ) * S ≤ x - X := by
      rw [← le_div_iff hS]
      calc ((min (⌊(x - X) / S⌋).toNat (N - 2) : ℕ) : ℚ) ≤ _ := hle1
        _ = _ := hle2
        _ ≤ _ := hle3
    linarith
  · by_cases hc : (⌊(x - X) / S⌋).toNat ≤ N - 2
    · rw [min_eq_left hc]
      have hlt : (x - X) / S < (⌊(x - X) / S⌋ : ℚ) + 1 := Int.lt_floor_add_one _
      have htn : ((⌊(x - X) / S⌋).toNat : ℤ) = ⌊(x - X) / S⌋ := Int.toNat_of_nonneg hfx0
      have hcast : (((⌊(x - X) / S⌋).toNat + 1 : ℕ) : ℚ) = ((⌊(x - X) / S⌋ : ℤ) : ℚ) + 1 := by
        rw [Nat.cast_add, Nat.cast_one, ← Int.cast_natCast, htn]
      have : x - X < (((⌊(x - X) / S⌋).toNat + 1 : ℕ) : ℚ) * S := by
        rw [hcast]
        have := (div_lt_iff hS).mp hlt
        linarith
      linarith
    · rw [min_eq_right (le_of_not_le hc)]
      have hN1 : (N - 2 + 1 : ℕ) = N - 1 := by omega
      rw [hN1]
      exact h2

/-- Open bands at distinct indices along one axis are disjoint. -/
theorem band_disjoint (X S : ℚ) (hS : 0 < S) (i i' : ℕ) (hne : i ≠ i') (x : ℚ)
    (h1 : X + (i : ℚ) * S < x) (h2 : x < X + ((i + 1 : ℕ) : ℚ) * S)
    (h1' : X + (i' : ℚ) * S < x) (h2' : x < X + ((i' + 1 : ℕ) : ℚ) * S) : False := by
  rcases Nat.lt_or_ge i i' with hlt | hge
  · have hq : ((i + 1 : ℕ) : ℚ) ≤ (i' : ℚ) := by exact_mod_cast hlt
    have hm : ((i + 1 : ℕ) : ℚ) * S ≤ (i' : ℚ) * S := mul_le_mul_of_nonneg_right hq hS.le
    linarith
  · have hlt' : i' < i := lt_of_le_of_ne hge (Ne.symm hne)
    have hq : ((i' + 1 : ℕ) : ℚ) ≤ (i : ℚ) := by exact_mod_cast hlt'
    have hm : ((i' + 1 : ℕ) : ℚ) * S ≤ (i : ℚ) * S := mul_le_mul_of_nonneg_right hq hS.le
    linarith

/-- Counterexample to claim C2 as stated: for `get_grid_df(1, 0, 3, 0, 2)`
the point (5/2, 1/2) lies in the given bounding box but in none of the
produced cells - the final x-band [2,3] is dropped, so the cells do not
tile the given box. -/
theorem C2_counterexample :
    ∃ cells, get_grid_df (.int 1) (.int 0) (.int 3) (.int 0) (.int 2) = some cells ∧
      ((0 : ℚ) ≤ 5 / 2 ∧ (5 / 2 : ℚ) ≤ 3 ∧ (0 : ℚ) ≤ 1 / 2 ∧ (1 / 2 : ℚ) ≤ 2) ∧
      ∀ c ∈ cells, ¬(c.x_min.toRat ≤ 5 / 2 ∧ (5 / 2 : ℚ) ≤ c.x_max.toRat ∧
        c.y_min.toRat ≤ 1 / 2 ∧ (1 / 2 : ℚ) ≤ c.y_max.toRat) := by
  have h : get_grid_df (.int 1) (.int 0) (.int 3) (.int 0) (.int 2) = some
      [{ Id := 1, tile_code := "e0-e1-n0-n1", x_min := .int 0, x_max := .int 1,
         y_min := .int 0, y_max := .int 1,
         geometry := "POLYGON((0 0, 0 1, 1 1, 1 0, 0 0))" },
       { Id := 2, tile_code := "e1-e2-n0-n1", x_min := .int 1, x_max := .int 2,
         y_min := .int 0, y_max := .int 1,
         geometry := "POLYGON((1 0, 1 1, 2 1, 2 0, 1 0))" }] := by decide
  refine ⟨_, h, by norm_num, ?_⟩
  intro c hc
  simp only [List.mem_cons, List.not_mem_nil, or_false] at hc
  rcases hc with rfl | rfl <;>
  · rintro ⟨-, h2, -, -⟩
    norm_num [PyNum.toRat, PyNum.toPair] at h2

/-- Claim C2 (amended): for `step > 0`, the cells of `get_grid_df` are
exactly the `(nx-1)·(ny-1)` cells at indices `(i, j)` with bounds
`xMin + i·step .. xMin + (i+1)·step` by `yMin + j·step .. yMin + (j+1)·step`
and id `i·(ny-1) + j + 1` (row-major: all y-cells of an x-band before the
next x-band), where `nx`/`ny` are the `np.arange` lengths; they tile the
*truncated* box `[xMin, xMin + (nx-1)·step] × [yMin, yMin + (ny-1)·step]`
without gaps (coverage) and without overlaps (disjoint interiors).  The
truncated box is strictly smaller than the given box, so the claim's
"tile the given bounding box" fails - see the counterexample. -/
theorem C2_amended (step xs_min xs_max ys_min ys_max : PyNum)
    (hvs : step.valid) (hvx : xs_min.valid) (hvy : ys_min.valid)
    (hstep : 0 < step.toRat) :
    ∃ cells, get_grid_df step xs_min xs_max ys_min ys_max = some cells ∧
      cells.length =
        (arangeLen xs_min xs_max step - 1) * (arangeLen ys_min ys_max step - 1) ∧
      (∀ c ∈ cells, ∃ i j,
        i < arangeLen xs_min xs_max step - 1 ∧ j < arangeLen ys_min ys_max step - 1 ∧
        c.Id = i * (arangeLen ys_min ys_max step - 1) + j + 1 ∧
        c.x_min.toRat = xs_min.toRat + (i : ℚ) * step.toRat ∧
        c.x_max.toRat = xs_min.toRat + ((i + 1 : ℕ) : ℚ) * step.toRat ∧
        c.y_min.toRat = ys_min.toRat + (j : ℚ) * step.toRat ∧
        c.y_max.toRat = ys_min.toRat + ((j + 1 : ℕ) : ℚ) * step.toRat) ∧
      (2 ≤ arangeLen xs_min xs_max step → 2 ≤ arangeLen ys_min ys_max step →
        ∀ x y : ℚ, xs_min.toRat ≤ x →
          x ≤ xs_min.toRat + ((arangeLen xs_min xs_max step - 1 : ℕ) : ℚ) * step.toRat →
          ys_min.toRat ≤ y →
          y ≤ ys_min.toRat + ((arangeLen ys_min ys_max step - 1 : ℕ) : ℚ) * step.toRat →
          ∃ c ∈ cells, c.x_min.toRat ≤ x ∧ x ≤ c.x_max.toRat ∧
            c.y_min.toRat ≤ y ∧ y ≤ c.y_max.toRat) ∧
      (∀ c ∈ cells, ∀ c2 ∈ cells, c.Id ≠ c2.Id → ∀ x y : ℚ,
        ¬((c.x_min.toRat < x ∧ x < c.x_max.toRat ∧
           c.y_min.toRat < y ∧ y < c.y_max.toRat) ∧
          (c2.x_min.toRat < x ∧ x < c2.x_max.toRat ∧
           c2.y_min.toRat < y ∧ y < c2.y_max.toRat))) := by
  have hsn : 0 < step.toPair.1 := (toRat_pos_iff step hvs).mp hstep
  have hsn' : step.toPair.1 ≠ 0 := ne_of_gt hsn
  obtain ⟨xs, hxs, hxl, hxv⟩ := np_arange_some xs_min xs_max step hvx hvs hsn'
  obtain ⟨ys, hys, hyl, hyv⟩ := np_arange_some ys_min ys_max step hvy hvs hsn'
  refine ⟨buildCells xs ys, ?_, ?_, ?_, ?_, ?_⟩
  · rw [get_grid_df, hxs, hys]
    rfl
  · rw [length_buildCells, hxl, hyl]
  · intro c hc
    obtain ⟨i, j, hi, hj, rfl⟩ := (mem_buildCells xs ys c).mp hc
    rw [hxl] at hi
    rw [hyl] at hj
    refine ⟨i, j, hi, hj, ?_, ?_, ?_, ?_, ?_⟩
    · simp only [cellOf]
      rw [hyl]
    · simp only [cellOf]
      exact hxv i (by omega)
    · simp only [cellOf]
      exact hxv (i + 1) (by omega)
    · simp only [cellOf]
      exact hyv j (by omega)
    · simp only [cellOf]
      exact hyv (j + 1) (by omega)
  · intro h2x h2y x y hx1 hx2 hy1 hy2
    obtain ⟨i, hiN, hilo, hihi⟩ :=
      cover_index xs_min.toRat step.toRat hstep (arangeLen xs_min xs_max step) h2x x hx1 hx2
    obtain ⟨j, hjN, hjlo, hjhi⟩ :=
      cover_index ys_min.toRat step.toRat hstep (arangeLen ys_min ys_max step) h2y y hy1 hy2
    refine ⟨cellOf xs ys i j,
      (mem_buildCells xs ys _).mpr ⟨i, j, by omega, by omega, rfl⟩, ?_, ?_, ?_, ?_⟩
    · simp only [cellOf]
      rw [hxv i (by omega)]
      exact hilo
    · simp only [cellOf]
      rw [hxv (i + 1) (by omega)]
      exact hihi
    · simp only [cellOf]
      rw [hyv j (by omega)]
      exact hjlo
    · simp only [cellOf]
      rw [hyv (j + 1) (by omega)]
      exact hjhi
  · intro c hc c2 hc2 hne x y hcontra
    obtain ⟨i, j, hi, hj, rfl⟩ := (mem_buildCells xs ys c).mp hc
    obtain ⟨i2, j2, hi2, hj2, rfl⟩ := (mem_buildCells xs ys c2).mp hc2
    obtain ⟨⟨ha1, ha2, ha3, ha4⟩, hb1, hb2, hb3, hb4⟩ := hcontra
    simp only [cellOf] at ha1 ha2 ha3 ha4 hb1 hb2 hb3 hb4
    rw [hxv i (by omega)] at ha1
    rw [hxv (i + 1) (by omega)] at ha2
    rw [hyv j (by omega)] at ha3
    rw [hyv (j + 1) (by omega)] at ha4
    rw [hxv i2 (by omega)] at hb1
    rw [hxv (i2 + 1) (by omega)] at hb2
    rw [hyv j2 (by omega)] at hb3
    rw [hyv (j2 + 1) (by omega)] at hb4
    by_cases hii : i = i2
    · subst hii
      have hjj : j ≠ j2 := by
        intro hj'
        subst hj'
        exact hne rfl
      exact band_disjoint ys_min.toRat step.toRat hstep j j2 hjj y ha3 ha4 hb3 hb4
    · exact band_disjoint xs_min.toRat step.toRat hstep i i2 hii x ha1 ha2 hb1 hb2

/-- Witness for C2 at the concrete grid `get_grid_df(1, 0, 3, 0, 2)`. -/
theorem C2_amended_witness :
    ∃ cells, get_grid_df (.int 1) (.int 0) (.int 3) (.int 0) (.int 2) = some cells ∧
      cells.length =
        (arangeLen (.int 0) (.int 3) (.int 1) - 1) *
          (arangeLen (.int 0) (.int 2) (.int 1) - 1) ∧
      (∀ c ∈ cells, ∃ i j,
        i < arangeLen (.int 0) (.int 3) (.int 1) - 1 ∧
        j < arangeLen (.int 0) (.int 2) (.int 1) - 1 ∧
        c.Id = i * (arangeLen (.int 0) (.int 2) (.int 1) - 1) + j + 1 ∧
        c.x_min.toRat = (PyNum.int 0).toRat + (i : ℚ) * (PyNum.int 1).toRat ∧
        c.x_max.toRat = (PyNum.int 0).toRat + ((i + 1 : ℕ) : ℚ) * (PyNum.int 1).toRat ∧
        c.y_min.toRat = (PyNum.int 0).toRat + (j : ℚ) * (PyNum.int 1).toRat ∧
        c.y_max.toRat = (PyNum.int 0).toRat + ((j + 1 : ℕ) : ℚ) * (PyNum.int 1).toRat) ∧
      (2 ≤ arangeLen (.int 0) (.int 3) (.int 1) → 2 ≤ arangeLen (.int 0) (.int 2) (.int 1) →
        ∀ x y : ℚ, (PyNum.int 0).toRat ≤ x →
          x ≤ (PyNum.int 0).toRat +
            ((arangeLen (.int 0) (.int 3) (.int 1) - 1 : ℕ) : ℚ) * (PyNum.int 1).toRat →
          (PyNum.int 0).toRat ≤ y →
          y ≤ (PyNum.int 0).toRat +
            ((arangeLen (.int 0) (.int 2) (.int 1) - 1 : ℕ) : ℚ) * (PyNum.int 1).toRat →
          ∃ c ∈ cells, c.x_min.toRat ≤ x ∧ x ≤ c.x_max.toRat ∧
            c.y_min.toRat ≤ y ∧ y ≤ c.y_max.toRat) ∧
      (∀ c ∈ cells, ∀ c2 ∈ cells, c.Id ≠ c2.Id → ∀ x y : ℚ,
        ¬((c.x_min.toRat < x ∧ x < c.x_max.toRat ∧
           c.y_min.toRat < y ∧ y < c.y_max.toRat) ∧
          (c2.x_min.toRat < x ∧ x < c2.x_max.toRat ∧
           c2.y_min.toRat < y ∧ y < c2.y_max.toRat))) :=
  C2_amended (.int 1) (.int 0) (.int 3) (.int 0) (.int 2) trivial trivial trivial
    (by norm_num [PyNum.toRat, PyNum.toPair])
